import Mathlib

/-!
Verification of the favannat compilation core: the matrix feedforward
fabricator (`src/matrix/feedforward/fabricator.rs`) and the recurrent-graph
unroll operation (`src/network/mod.rs`).

Modelling conventions, chosen to mirror the Rust source line by line:

* Node ids are `Nat` (Rust `usize`; no arithmetic overflows the 64-bit range
  for realizable graphs, noted where relevant).
* Activation functions are opaque tags (`Nat`); tag `0` stands for the
  identity closure `|val| val` that the source uses for synthetic nodes.
* Edge weights are modelled as `Int`.  The implementation's `f32::NAN`
  sentinel inside `compute_or_carry` is modelled by `Option Int` (`none` =
  the NaN sentinel, "no dependency writes this column"); the final
  "replace NAN with 0.0" step is `Option.getD 0`.  Caller-supplied NaN
  weights are outside the model.
* The Rust `HashMap<usize, Vec<&E>>` dependency graph has an unspecified,
  run-dependent iteration order.  It is modelled as an association list
  `List (Nat × List Edge)`; `IsDepGraphOf dg edges` says the list is a valid
  materialization of the map built by the source (one entry per distinct
  edge end, holding exactly the incoming edges in edge-list order, in some
  key order).  Removal keeps the relative order of the surviving entries.
* Vec index assignment (`v[i] = x`), which panics when out of bounds, and
  `Option::unwrap` are modelled by an explicit `panic` outcome.
-/

/-- Activation-function tag (Rust `fn(f32) -> f32` pointers, abstracted).
Tag `0` is the identity function `|val| val`. -/
abbrev Act := Nat

/-- The identity activation `|val| val` used for synthetic wrapper nodes. -/
def identAct : Act := 0

/-- A transformation entry of a compiled stage: either the identity closure
pushed for carried values (`transformations.push(|val| val)`) or a node's
activation function. -/
inductive Transform where
  | ident : Transform
  | act : Act → Transform
deriving DecidableEq, Repr

/-- A node of the network: unique id plus activation (`NodeLike`). -/
structure Node where
  id : Nat
  activation : Act
deriving DecidableEq, Repr

/-- A directed weighted edge (`EdgeLike`).  The Rust field `end` is a Lean
keyword, hence `dest`. -/
structure Edge where
  start : Nat
  dest : Nat
  weight : Int
deriving DecidableEq, Repr

/-- A network (`NetworkLike`): partitioned node lists plus an edge list. -/
structure Net where
  inputs : List Node
  hidden : List Node
  outputs : List Node
  edges : List Edge
deriving DecidableEq, Repr

/-- `NetworkLike::nodes`: inputs, then hidden, then outputs. -/
def Net.nodes (net : Net) : List Node :=
  net.inputs ++ net.hidden ++ net.outputs

/-- One compiled stage before matrix packaging: the list of weight-vector
columns pushed into `stage_matrix` (the `DMatrix::from_columns` packaging is
a bijective re-representation and is not modelled). -/
abbrev Stage := List (List Int)

/-- The mutable per-round state of the fabrication loop: the stage columns,
the parallel transformation list, and `next_available_nodes`. -/
structure RoundState where
  stage : Stage
  transfs : List Transform
  nextAvail : List Nat
deriving DecidableEq, Repr

/-- `let mut carry = vec![0.0; n]; carry[index] = 1.0;` -/
def onehot (n index : Nat) : List Int :=
  (List.replicate n (0 : Int)).set index 1

/-- Inner scan of the dependency loop: for every position of
`available_nodes` equal to the edge's start, write the edge's weight into the
compute vector. -/
def setDep (avail : List Nat) (e : Edge) (vec : List (Option Int)) : List (Option Int) :=
  List.zipWith (fun a w => if a = e.start then some e.weight else w) avail vec

/-- The compute vector after all dependencies have written their weights
(`compute_or_carry`, NaN modelled as `none`).  Dependencies are applied in
list order, so a later edge with the same start overwrites an earlier one,
as in the source. -/
def depsVec (avail : List Nat) (deps : List Edge) : List (Option Int) :=
  deps.foldl (fun v e => setDep avail e v) (avail.map fun _ => none)

/-- The `carry` sub-loop of a non-computable node: walk `compute_or_carry`
with its index; where a weight was written and the available node at that
index is not yet in `next_available_nodes`, push a one-hot carry column, an
identity transformation, and the node.  `n` is `available_nodes.len()`. -/
def addCarries (n : Nat) : Nat → List Nat → List (Option Int) → RoundState → RoundState
  | _, [], _, st => st
  | _, _ :: _, [], st => st
  | i, a :: as, w :: ws, st =>
    let st' :=
      if w.isSome ∧ a ∉ st.nextAvail then
        { stage := st.stage ++ [onehot n i]
          transfs := st.transfs ++ [Transform.ident]
          nextAvail := st.nextAvail ++ [a] }
      else st
    addCarries n (i + 1) as ws st'

/-- Process one entry `(dependent_node, dependencies)` of the dependency
graph: if every dependency's start is available the node is computable (push
its weight column and activation; a missing node in `net.nodes()` is the
`unwrap` panic, modelled as `none`); otherwise emit carries for the partial
dependencies. -/
def processNode (net : Net) (avail : List Nat) (st : RoundState) :
    Nat × List Edge → Option RoundState
  | (dep, deps) =>
    let vec := depsVec avail deps
    if deps.all fun e => decide (e.start ∈ avail) then
      match net.nodes.find? fun nd => decide (nd.id = dep) with
      | none => none
      | some nd =>
        some
          { stage := st.stage ++ [vec.map fun o => o.getD 0]
            transfs := st.transfs ++ [Transform.act nd.activation]
            nextAvail := st.nextAvail ++ [dep] }
    else
      some (addCarries avail.length 0 avail vec st)

/-- The scan over all dependency-graph entries of one round, in the map's
iteration order; a panic (`none`) aborts the whole fabrication. -/
def processAllNodes (net : Net) (avail : List Nat) :
    List (Nat × List Edge) → RoundState → Option RoundState
  | [], st => some st
  | entry :: rest, st =>
    match processNode net avail st entry with
    | none => none
    | some st' => processAllNodes net avail rest st'

/-- Inner loop of the wanted-node carry pass: scan all of `available_nodes`
with index, carrying position `i` whenever it holds `w` and `w` is not
already scheduled. -/
def addWantedForOne (n w : Nat) : Nat → List Nat → RoundState → RoundState
  | _, [], st => st
  | i, a :: as, st =>
    let st' :=
      if a = w ∧ a ∉ st.nextAvail then
        { stage := st.stage ++ [onehot n i]
          transfs := st.transfs ++ [Transform.ident]
          nextAvail := st.nextAvail ++ [a] }
      else st
    addWantedForOne n w (i + 1) as st'

/-- `// keep any wanted notes if available (output)`: carry every wanted node
that is currently available and not yet produced or carried this round. -/
def addWantedCarries (avail : List Nat) : List Nat → RoundState → RoundState
  | [], st => st
  | w :: ws, st => addWantedCarries avail ws (addWantedForOne avail.length w 0 avail st)

/-- One full round body up to (but not including) dependency removal:
the dependency-graph scan followed by the wanted-node carries. -/
def runRound (net : Net) (wanted avail : List Nat) (dg : List (Nat × List Edge)) :
    Option RoundState :=
  (processAllNodes net avail dg ⟨[], [], []⟩).map (addWantedCarries avail wanted)

/-- First index of `a` in `wanted` (the inner `for (index, wanted_node)`
loop with `break`). -/
def firstIdxFrom (wanted : List Nat) (a : Nat) : Option Nat :=
  match wanted with
  | [] => none
  | w :: ws => if w = a then some 0 else (firstIdxFrom ws a).map (· + 1)

/-- One step of the terminal reorder walk, for one `(available_node,
column, transformation)` triple: find the first wanted index holding that
node (no find: skip) and overwrite the reordered matrix and transformations
there, counting the match.  The Rust `reordered_matrix[index] = column` /
`reordered_transformations[index] = transformation` assignments panic
(`none`) when `index` is out of bounds. -/
def reorderStep (wanted : List Nat) (acc : Stage × List Transform × Nat)
    (x : (Nat × List Int) × Transform) : Option (Stage × List Transform × Nat) :=
  match firstIdxFrom wanted x.1.1 with
  | none => some acc
  | some i =>
    if i < acc.1.length then
      if i < acc.2.1.length then
        some (acc.1.set i x.1.2, acc.2.1.set i x.2, acc.2.2 + 1)
      else none
    else none

/-- The terminal reorder walk over all triples of the round. -/
def reorderFold (wanted : List Nat) :
    List ((Nat × List Int) × Transform) → Stage × List Transform × Nat →
      Option (Stage × List Transform × Nat)
  | [], acc => some acc
  | x :: xs, acc =>
    match reorderStep wanted acc x with
    | none => none
    | some acc2 => reorderFold wanted xs acc2

/-- The terminal-round reordering (source lines 171-204): clones of the
stage matrix and transformations are overwritten in wanted order; returns
the reordered pair and `matched_wanted_count`. -/
def reorderStage (wanted : List Nat) (st : RoundState) :
    Option (Stage × List Transform × Nat) :=
  reorderFold wanted ((st.nextAvail.zip st.stage).zip st.transfs) (st.stage, st.transfs, 0)

/-- The three members of the compile-error taxonomy. -/
inductive FabError where
  | empty : FabError
  | unresolvable : FabError
  | incompleteOutputs : FabError
deriving DecidableEq, Repr

/-- The fixed human-readable message of each error (test-asserted verbatim
in the source). -/
def errorMessage : FabError → String
  | .empty => "no edges present, net invalid"
  | .unresolvable => "can\x27t resolve dependencies, net invalid"
  | .incompleteOutputs => "dependencies resolved but not all outputs computable, net invalid"

/-- Result of `fabricate`: a successful evaluator (stage list plus per-stage
transformation lists), an error value, or a Rust panic (out-of-bounds index
or failed `unwrap`), which never reaches the `Result` channel. -/
inductive FabOutcome where
  | ok : List Stage → List (List Transform) → FabOutcome
  | err : FabError → FabOutcome
  | panic : FabOutcome
deriving DecidableEq, Repr

/-- `available_nodes` right after initialization: the declared input ids,
sorted (`sort_unstable`; no de-duplication happens). -/
def availableInit (net : Net) : List Nat :=
  (net.inputs.map Node.id).insertionSort (· ≤ ·)

/-- `wanted_nodes`: the declared output ids, sorted (no de-duplication). -/
def wantedInit (net : Net) : List Nat :=
  (net.outputs.map Node.id).insertionSort (· ≤ ·)

/-- The fabrication `while` loop.  The loop itself has no fuel in the
source; it terminates because a round that removes nothing returns
`Unresolvable` and otherwise the dependency graph strictly shrinks, so
`|dg|` rounds always suffice (`fabLoopF_fuel_congr` below proves the fuel
irrelevant from `|dg|` upward; the fuel-0 branch is unreachable from
`fabricate`).  The second component counts the executed rounds. -/
def fabLoopF (net : Net) (wanted : List Nat) :
    Nat → List (Nat × List Edge) → List Nat → List Stage → List (List Transform) →
      FabOutcome × Nat
  | 0, _, _, _, _ => (.panic, 0)
  | fuel + 1, dg, avail, accS, accT =>
    match runRound net wanted avail dg with
    | none => (.panic, 1)
    | some st =>
      if (dg.filter fun p => decide (p.1 ∉ st.nextAvail)).length = dg.length then
        (.err .unresolvable, 1)
      else if (dg.filter fun p => decide (p.1 ∉ st.nextAvail)).isEmpty then
        match reorderStage wanted st with
        | none => (.panic, 1)
        | some (m, tt, matched) =>
          if matched < wanted.length then (.err .incompleteOutputs, 1)
          else (.ok (accS ++ [m]) (accT ++ [tt]), 1)
      else
        (fun r => (r.1, r.2 + 1))
          (fabLoopF net wanted fuel (dg.filter fun p => decide (p.1 ∉ st.nextAvail))
            st.nextAvail (accS ++ [st.stage]) (accT ++ [st.transfs]))

/-- `MatrixFeedforwardFabricator::fabricate`, parametrized by the
association-list materialization `dg` of the dependency-graph `HashMap`
(its iteration order is the implementation's only nondeterminism). -/
def fabricate (net : Net) (dg : List (Nat × List Edge)) : FabOutcome :=
  if dg.isEmpty then .err .empty
  else (fabLoopF net (wantedInit net) dg.length dg (availableInit net) [] []).1

/-- Number of executed rounds of the fabrication loop (0 when the empty
check fails before the loop). -/
def fabRounds (net : Net) (dg : List (Nat × List Edge)) : Nat :=
  if dg.isEmpty then 0
  else (fabLoopF net (wantedInit net) dg.length dg (availableInit net) [] []).2

/-- The keys of a dependency-graph association list. -/
def dgKeys (dg : List (Nat × List Edge)) : List Nat :=
  dg.map Prod.fst

/-- `dg` is a valid materialization of the `HashMap` the source builds from
the edge list: distinct keys, each entry holding exactly the incoming edges
of its key in edge-list order (and nonempty, since entries are only created
by pushing an edge), one entry for every edge end, in an arbitrary key
order. -/
def IsDepGraphOf (dg : List (Nat × List Edge)) (edges : List Edge) : Prop :=
  (dgKeys dg).Nodup ∧
    (∀ p ∈ dg, p.2 = edges.filter (fun e => decide (e.dest = p.1)) ∧ p.2 ≠ []) ∧
    ∀ e ∈ edges, e.dest ∈ dgKeys dg

/-- One concrete valid materialization (keys in first-occurrence order),
used for witnesses. -/
def buildDepGraph (edges : List Edge) : List (Nat × List Edge) :=
  ((edges.map Edge.dest).dedup).map
    fun n => (n, edges.filter fun e => decide (e.dest = n))

/-!  The cycle unroller (`src/network/mod.rs`, `net::unroll`). -/

/-- A `Recurrent` network: a `NetworkLike` plus the recurrent edge list. -/
structure RNet where
  inputs : List Node
  hidden : List Node
  outputs : List Node
  edges : List Edge
  recEdges : List Edge
deriving DecidableEq, Repr

/-- All caller-supplied nodes of a recurrent net. -/
def rnetNodes (r : RNet) : List Node :=
  r.inputs ++ r.hidden ++ r.outputs

/-- `usize::MAX.shr(1)` on a 64-bit target: the first id handed out by the
`tmp_ids` range iterator ("upper half of usize is used for wrapping node
ids"). -/
def halfId : Nat := 2 ^ 63 - 1

/-- Association-list lookup, the model of `HashMap::get`-style access used
by `unroll_map` (only `entry`/`or_insert_with` and `insert` are used; the
map is never iterated, so the list model is exact). -/
def mapLookup (m : List (Nat × Nat)) (k : Nat) : Option Nat :=
  (m.find? fun p => decide (p.1 = k)).map (·.2)

/-- `HashMap::insert`: overwrite an existing key, append a fresh one. -/
def mapInsert (m : List (Nat × Nat)) (k v : Nat) : List (Nat × Nat) :=
  if (m.find? fun p => decide (p.1 = k)).isSome then
    m.map fun p => if p.1 = k then (k, v) else p
  else m ++ [(k, v)]

/-- The working state of one `unroll` call.  `allocated` is a ghost log of
the ids handed out by the `tmp_ids` iterator, in allocation order (the range
iterator's exhaustion after `2 ^ 63` ids is unreachable for realizable
graphs and is not modelled). -/
structure UnrollState where
  knownInputs : List Node
  knownOutputs : List Node
  knownEdges : List Edge
  unrollMap : List (Nat × Nat)
  nextId : Nat
  allocated : List Nat
deriving DecidableEq, Repr

/-- First `unroll` pass, one step: for an original output, unconditionally
push a synthetic wrapper input with identity activation and record
`output.id() -> wrapper_input_id`. -/
def addOutputWrapper (st : UnrollState) (o : Node) : UnrollState :=
  { st with
    knownInputs := st.knownInputs ++ [⟨st.nextId, identAct⟩]
    unrollMap := mapInsert st.unrollMap o.id st.nextId
    nextId := st.nextId + 1
    allocated := st.allocated ++ [st.nextId] }

/-- `for output in recurrent.outputs()` wrapper-input pass. -/
def outputsPass (outs : List Node) (st : UnrollState) : UnrollState :=
  outs.foldl addOutputWrapper st

/-- Second pass, one step: for a recurrent edge, look the source up in the
memo map; on a miss allocate a wrapper-input/wrapper-output pair, push both
nodes, push the outward identity edge `source -> wrapper_output` of weight
one, and record the source; in both cases push the inward edge
`wrapper_input -> destination` carrying the recurrent weight. -/
def addRecEdge (st : UnrollState) (re : Edge) : UnrollState :=
  match mapLookup st.unrollMap re.start with
  | some wi =>
    { st with knownEdges := st.knownEdges ++ [⟨wi, re.dest, re.weight⟩] }
  | none =>
    { knownInputs := st.knownInputs ++ [⟨st.nextId, identAct⟩]
      knownOutputs := st.knownOutputs ++ [⟨st.nextId + 1, identAct⟩]
      knownEdges := st.knownEdges ++ [⟨re.start, st.nextId + 1, 1⟩, ⟨st.nextId, re.dest, re.weight⟩]
      unrollMap := mapInsert st.unrollMap re.start st.nextId
      nextId := st.nextId + 2
      allocated := st.allocated ++ [st.nextId, st.nextId + 1] }

/-- `for recurrent_edge in recurrent.recurrent_edges()` pass. -/
def recPass (res : List Edge) (st : UnrollState) : UnrollState :=
  res.foldl addRecEdge st

/-- The state entering the passes: verbatim copies of the original inputs,
outputs and non-recurrent edges, an empty memo map, and the id counter at
the bottom of the reserved upper half. -/
def unrollInit (r : RNet) : UnrollState :=
  { knownInputs := r.inputs
    knownOutputs := r.outputs
    knownEdges := r.edges
    unrollMap := []
    nextId := halfId
    allocated := [] }

/-- The final working state of `unroll`. -/
def unrollState (r : RNet) : UnrollState :=
  recPass r.recEdges (outputsPass r.outputs (unrollInit r))

/-- `net::unroll`: the result net assembles the augmented inputs, the
untouched hidden nodes, the augmented outputs and the rewritten edges
(`Net::new(inputs_count, outputs_count, known_inputs ++ hidden ++
known_outputs, known_edges)` with positional partition). -/
def unroll (r : RNet) : Net :=
  { inputs := (unrollState r).knownInputs
    hidden := r.hidden
    outputs := (unrollState r).knownOutputs
    edges := (unrollState r).knownEdges }

/-- Accumulating scan for the distinct recurrent-edge sources that are not
already memoized (original outputs or previously seen sources), in
first-occurrence order. -/
def newSourcesFrom (outIds acc srcs : List Nat) : List Nat :=
  srcs.foldl (fun a s => if s ∈ outIds ∨ s ∈ a then a else a ++ [s]) acc

/-- The distinct recurrent-edge sources that are not original outputs, in
first-occurrence order: exactly the sources for which the memoized
`or_insert_with` allocates a wrapper pair. -/
def newRecSources (r : RNet) : List Nat :=
  newSourcesFrom (r.outputs.map Node.id) [] (r.recEdges.map Edge.start)

/-- Unconditional facts maintained by both `unroll` passes: the id counter
stays in the reserved upper half, the ghost allocation log is the contiguous
range from `usize::MAX >> 1` up to the counter, and every memo-map value is
a synthetic id whose identity-activation node was pushed into the known
inputs. -/
structure UnrollInv (st : UnrollState) : Prop where
  nextGe : halfId ≤ st.nextId
  alloc : st.allocated = List.range' halfId (st.nextId - halfId)
  mapVals : ∀ p ∈ st.unrollMap, halfId ≤ p.2 ∧ (⟨p.2, identAct⟩ : Node) ∈ st.knownInputs

/-- Facts about the rewritten edge list maintained by the recurrent pass
(relative to the original net `r`): every known edge is an original edge or
touches the synthetic range; a non-output source below the synthetic range
has exactly one outward wrapper edge once memoized (and none before); and
every memoized such source has its outward identity edge to a synthetic
wrapper-output node. -/
structure UnrollEdgeInv (r : RNet) (st : UnrollState) : Prop where
  edgesShape : ∀ e ∈ st.knownEdges, e ∈ r.edges ∨ halfId ≤ e.dest ∨ halfId ≤ e.start
  outCount : ∀ s : Nat, s < halfId → s ∉ r.outputs.map Node.id →
    ((st.knownEdges.filter fun e =>
        decide (e.start = s) && decide (halfId ≤ e.dest)).length
      = if (mapLookup st.unrollMap s).isSome then 1 else 0)
  outWrap : ∀ s : Nat, s < halfId → s ∉ r.outputs.map Node.id →
    (mapLookup st.unrollMap s).isSome →
    ∃ wo : Nat, (⟨s, wo, 1⟩ : Edge) ∈ st.knownEdges ∧ halfId ≤ wo ∧
      (⟨wo, identAct⟩ : Node) ∈ st.knownOutputs

instance instDecIsDepGraphOf (dg : List (Nat × List Edge)) (edges : List Edge) :
    Decidable (IsDepGraphOf dg edges) := by
  unfold IsDepGraphOf dgKeys
  infer_instance

/-!  Concrete instances used by counterexamples and witnesses. -/

/-- Diamond net: input 0 feeds hidden 1 and 2 (distinct weights), both feed
output 3.  Nodes 1 and 2 are computable in the same round, so the round's
column order follows the dependency-map iteration order. -/
def c2net : Net :=
  { inputs := [⟨0, 0⟩], hidden := [⟨1, 0⟩, ⟨2, 0⟩], outputs := [⟨3, 0⟩],
    edges := [⟨0, 1, 1⟩, ⟨0, 2, 2⟩, ⟨1, 3, 1⟩, ⟨2, 3, 1⟩] }

/-- One valid iteration order of `c2net`'s dependency map. -/
def c2dgA : List (Nat × List Edge) :=
  [(1, [⟨0, 1, 1⟩]), (2, [⟨0, 2, 2⟩]), (3, [⟨1, 3, 1⟩, ⟨2, 3, 1⟩])]

/-- Another valid iteration order of the same map (keys 1 and 2 swapped). -/
def c2dgB : List (Nat × List Edge) :=
  [(2, [⟨0, 2, 2⟩]), (1, [⟨0, 1, 1⟩]), (3, [⟨1, 3, 1⟩, ⟨2, 3, 1⟩])]

/-- Input 0, declared outputs 5 and 7, single edge `0 -> 7`: output 7 is
computable in round one and matches wanted index 1, but the terminal round
produced only one column. -/
def c3net : Net :=
  { inputs := [⟨0, 0⟩], hidden := [], outputs := [⟨5, 0⟩, ⟨7, 0⟩], edges := [⟨0, 7, 1⟩] }

/-- The (unique) dependency map of `c3net`. -/
def c3dg : List (Nat × List Edge) := buildDepGraph c3net.edges

/-- Outputs declared in the order `[7, 5]`, plus a hidden node 1 computed in
the same terminal round: the compiled final stage keeps a leftover column
for node 1 and sorts the outputs by id, not by declaration order. -/
def c1net : Net :=
  { inputs := [⟨0, 0⟩], hidden := [⟨1, 0⟩], outputs := [⟨7, 0⟩, ⟨5, 0⟩],
    edges := [⟨0, 7, 2⟩, ⟨0, 5, 3⟩, ⟨0, 1, 4⟩] }

/-- The dependency map of `c1net` in first-occurrence key order. -/
def c1dg : List (Nat × List Edge) := buildDepGraph c1net.edges

/-- A two-stage chain `0 -> 1 -> 2` used as a well-behaved witness net. -/
def c1wnet : Net :=
  { inputs := [⟨0, 0⟩], hidden := [⟨1, 0⟩], outputs := [⟨2, 0⟩],
    edges := [⟨0, 1, 2⟩, ⟨1, 2, 3⟩] }

/-- The dependency map of `c1wnet`. -/
def c1wdg : List (Nat × List Edge) := buildDepGraph c1wnet.edges

/-- A net whose caller supplies the same input node id twice (`Net::new`
performs no validation), so the sorted `available_nodes` keeps the
duplicate. -/
def c6net : Net :=
  { inputs := [⟨0, 0⟩, ⟨0, 0⟩], hidden := [], outputs := [⟨1, 0⟩], edges := [⟨0, 1, 1⟩] }

/-- A net with an edge ending in id 9, which is no node of the net; its only
source is the declared input 0. -/
def c10net : Net :=
  { inputs := [⟨0, 0⟩], hidden := [], outputs := [⟨1, 0⟩], edges := [⟨0, 9, 1⟩] }

/-- The dependency map of `c10net`. -/
def c10dg : List (Nat × List Edge) := buildDepGraph c10net.edges

/-- A net with no edges (for the `Empty` witness). -/
def c5net : Net :=
  { inputs := [⟨0, 0⟩], hidden := [], outputs := [⟨1, 0⟩], edges := [] }

/-- A recurrent net whose only recurrent edge starts at an original output
(a self-loop on output 1). -/
def c7rnet : RNet :=
  { inputs := [⟨0, 0⟩], hidden := [], outputs := [⟨1, 0⟩],
    edges := [⟨0, 1, 5⟩], recEdges := [⟨1, 1, 7⟩] }

/-- A recurrent net with a recurrent self-loop on the hidden node 1 (a
non-output source), used as witness. -/
def c7wrnet : RNet :=
  { inputs := [⟨0, 0⟩], hidden := [⟨1, 0⟩], outputs := [⟨2, 0⟩],
    edges := [⟨0, 1, 2⟩, ⟨1, 2, 3⟩], recEdges := [⟨1, 1, 4⟩] }

/-- A recurrent net whose caller-supplied output node already uses the id
`usize::MAX >> 1`, the first id of the reserved synthetic range. -/
def c9rnet : RNet :=
  { inputs := [], hidden := [], outputs := [⟨halfId, 0⟩], edges := [], recEdges := [] }

/-- Bookkeeping facts about a round state: the stage columns, the
transformations and `next_available_nodes` are pushed in lockstep, and no
wanted node is produced or carried twice in one round. -/
def RoundStateOK (wanted : List Nat) (st : RoundState) : Prop :=
  st.stage.length = st.nextAvail.length ∧
    st.transfs.length = st.nextAvail.length ∧
    (st.nextAvail.filter fun a => decide (a ∈ wanted)).Nodup

/-- Invariant carried through the per-round scan: lockstep lengths, the
wanted-restricted produced/carried list has no duplicates, and everything
produced or carried so far is either an available node (a carry) or one of
the dependency-graph keys already processed (`seen`). -/
def ScanInv (wanted avail seen : List Nat) (st : RoundState) : Prop :=
  st.stage.length = st.nextAvail.length ∧
    st.transfs.length = st.nextAvail.length ∧
    (st.nextAvail.filter fun a => decide (a ∈ wanted)).Nodup ∧
    ∀ x ∈ st.nextAvail, x ∈ avail ∨ x ∈ seen

/-!  Concrete-run theorems for the corrected / code-bug claims. -/

/-- Claim C2 (refutation on the code as written): the two association lists
are both valid iteration orders of the dependency-graph `HashMap` built for
`c2net`, yet fabrication compiles them to different stage matrices (the two
hidden-node columns of stage one appear in map-iteration order).  Rust's
`HashMap` iteration order is randomized per map instance, so repeated runs
are not bit-identical, contradicting the determinism requirement. -/
theorem c2_fabricate_depends_on_map_order :
    IsDepGraphOf c2dgA c2net.edges ∧ IsDepGraphOf c2dgB c2net.edges ∧
      fabricate c2net c2dgA ≠ fabricate c2net c2dgB := by
  refine ⟨by decide, by decide, by decide⟩

/-- Claim C3 (refutation on the code as written): on `c3net` the terminal
round matches only one of the two declared outputs (so the claim demands the
`IncompleteOutputs` error), but the reorder loop writes the matched column
at wanted index 1 into a one-column matrix — a Vec index out of bounds, i.e.
a panic, never the error value. -/
theorem c3_terminal_reorder_panics :
    IsDepGraphOf c3dg c3net.edges ∧ wantedInit c3net = [5, 7] ∧
      fabricate c3net c3dg = FabOutcome.panic := by
  refine ⟨by decide, by decide, by decide⟩

/-- Claim C1 (counterexample): `c1net` compiles successfully, but its final
(only) stage holds three columns for two declared outputs — the leftover
column of hidden node 1 survives the reorder — and the first column is the
one of output node 5 although the first *declared* output is node 7 (the
compiler orders by sorted id, `wantedInit c1net = [5, 7]`).  So the final
stage's column order does not equal the declared output order. -/
theorem c1_final_stage_not_declared_order :
    fabricate c1net c1dg =
        FabOutcome.ok [[[3], [2], [4]]]
          [[Transform.act 0, Transform.act 0, Transform.act 0]] ∧
      IsDepGraphOf c1dg c1net.edges ∧
      c1net.outputs.map Node.id = [7, 5] ∧
      wantedInit c1net = [5, 7] := by
  refine ⟨by decide, by decide, by decide, by decide⟩

/-- Claim C6 (counterexample): with a duplicated declared input id the
initialization produces `[0, 0]` — `sort_unstable` is applied but nothing
de-duplicates, so the claimed "no duplicate ids after this step" fails. -/
theorem c6_no_dedup :
    availableInit c6net = [0, 0] ∧ ¬ (availableInit c6net).Nodup := by
  refine ⟨by decide, by decide⟩

/-- Claim C7 (counterexample): the only recurrent edge of `c7rnet` starts at
the original output node 1, whose id is already memoized by the
output-wrapper pass, so no wrapper pair is allocated for it and no identity
edge of weight one from node 1 is added — only the inward edge from the
output's feedback wrapper input.  The claimed "adds an identity edge of
weight 1.0 from the source to the wrapper-output" fails for this recurrent
edge. -/
theorem c7_output_source_gets_no_identity_edge :
    (unroll c7rnet).edges = [⟨0, 1, 5⟩, ⟨halfId, 1, 7⟩] ∧
      (unroll c7rnet).outputs = [⟨1, 0⟩] ∧
      (unroll c7rnet).edges.filter (fun e => decide (e.start = 1)) = [] := by
  refine ⟨by decide, by decide, by decide⟩

/-- Claim C9 (counterexample): a caller may legally hand `unroll` a node
whose id lies in the upper half of `usize`; here the output node's id is
`usize::MAX >> 1`, which is exactly the first id the synthetic allocator
hands out, so the synthetic id collides with a caller-supplied id. -/
theorem c9_synthetic_id_collision :
    (unrollState c9rnet).allocated = [halfId] ∧
      halfId ∈ (rnetNodes c9rnet).map Node.id := by
  refine ⟨by decide, by decide⟩

/-!  General lemmas about the fabrication loop. -/

/-- The loop never produces the `Empty` error: that error is decided before
the loop from the emptiness of the freshly built dependency graph. -/
theorem fabLoopF_fst_ne_empty (net : Net) (wanted : List Nat) :
    ∀ (fuel : Nat) (dg : List (Nat × List Edge)) (avail : List Nat)
      (accS : List Stage) (accT : List (List Transform)),
      (fabLoopF net wanted fuel dg avail accS accT).1 ≠ FabOutcome.err FabError.empty := by
  intro fuel
  induction fuel with
  | zero => intro dg avail accS accT h; simp [fabLoopF] at h
  | succ n ih =>
    intro dg avail accS accT h
    rw [fabLoopF] at h
    revert h
    cases hr : runRound net wanted avail dg with
    | none => simp
    | some st =>
      simp only
      split
      · simp
      · split
        · cases hre : reorderStage wanted st with
          | none => simp
          | some x =>
            obtain ⟨m, tt, matched⟩ := x
            simp only
            split
            · simp
            · simp
        · intro h
          exact ih _ _ _ _ h

/-- Claim C5: `fabricate` returns the `Empty` error exactly when the edge
set is empty (the dependency map is empty iff no edge created an entry);
with a non-empty edge set the loop can only produce the other outcomes. -/
theorem c5_empty_iff_no_edges (net : Net) (dg : List (Nat × List Edge))
    (h : IsDepGraphOf dg net.edges) :
    fabricate net dg = FabOutcome.err FabError.empty ↔ net.edges = [] := by
  constructor
  · intro hf
    by_contra hne
    obtain ⟨e, he⟩ := List.exists_mem_of_ne_nil _ hne
    have hk := h.2.2 e he
    have hdgne : dg ≠ [] := by
      intro h0
      rw [h0] at hk
      simp [dgKeys] at hk
    rw [fabricate] at hf
    rw [if_neg (by simp [List.isEmpty_iff, hdgne])] at hf
    exact fabLoopF_fst_ne_empty net (wantedInit net) _ _ _ _ _ hf
  · intro he
    have hdg : dg = [] := by
      cases dg with
      | nil => rfl
      | cons p ps =>
        have h1 := (h.2.1 p (by simp)).1
        have h2 := (h.2.1 p (by simp)).2
        rw [he] at h1
        simp at h1
        exact absurd h1 h2
    subst hdg
    rfl

/-- Witness for C5 at the edgeless net `c5net`. -/
theorem c5_witness :
    IsDepGraphOf ([] : List (Nat × List Edge)) c5net.edges ∧
      fabricate c5net [] = FabOutcome.err FabError.empty :=
  ⟨by decide, (c5_empty_iff_no_edges c5net [] (by decide)).mpr (by decide)⟩

/-- Round-count bound: from any loop entry with a nonempty dependency graph
and sufficient fuel, the loop executes at most `|dg|` rounds — each round
either strictly shrinks the graph or is the last. -/
theorem fabLoopF_rounds_le (net : Net) (wanted : List Nat) :
    ∀ (fuel : Nat) (dg : List (Nat × List Edge)) (avail : List Nat)
      (accS : List Stage) (accT : List (List Transform)),
      dg ≠ [] → dg.length ≤ fuel →
      (fabLoopF net wanted fuel dg avail accS accT).2 ≤ dg.length := by
  intro fuel
  induction fuel with
  | zero =>
    intro dg avail accS accT hne hle
    cases dg with
    | nil => exact absurd rfl hne
    | cons p ps => simp at hle
  | succ n ih =>
    intro dg avail accS accT hne hle
    have hpos : 1 ≤ dg.length := by
      cases dg with
      | nil => exact absurd rfl hne
      | cons p ps => simp
    rw [fabLoopF]
    cases hr : runRound net wanted avail dg with
    | none => simpa using hpos
    | some st =>
      simp only
      split
      · simpa using hpos
      · split
        · cases hre : reorderStage wanted st with
          | none => simpa using hpos
          | some x =>
            obtain ⟨m, tt, matched⟩ := x
            simp only
            split
            · simpa using hpos
            · simpa using hpos
        · rename_i hlen hne2
          have hlt : (dg.filter fun p => decide (p.1 ∉ st.nextAvail)).length < dg.length :=
            Nat.lt_of_le_of_ne (List.length_filter_le _ _) hlen
          have hne3 : (dg.filter fun p => decide (p.1 ∉ st.nextAvail)) ≠ [] := by
            intro h0
            rw [h0] at hne2
            simp at hne2
          have := ih (dg.filter fun p => decide (p.1 ∉ st.nextAvail)) st.nextAvail
            (accS ++ [st.stage]) (accT ++ [st.transfs]) hne3 (by omega)
          simp only
          omega

/-- A valid dependency map has exactly one entry per distinct edge end. -/
theorem dg_length_eq_dedup_ends (net : Net) (dg : List (Nat × List Edge))
    (h : IsDepGraphOf dg net.edges) :
    dg.length = ((net.edges.map Edge.dest).dedup).length := by
  have hkeys : (dgKeys dg).length = dg.length := List.length_map _ _
  have hsub1 : dgKeys dg ⊆ (net.edges.map Edge.dest).dedup := by
    intro k hk
    obtain ⟨p, hp, hfst⟩ := List.mem_map.mp hk
    have h1 := (h.2.1 p hp).1
    have h2 := (h.2.1 p hp).2
    rw [h1] at h2
    obtain ⟨e, he⟩ := List.exists_mem_of_ne_nil _ h2
    have hee := List.mem_filter.mp he
    have : e.dest = p.1 := by simpa using hee.2
    rw [List.mem_dedup]
    exact List.mem_map.mpr ⟨e, hee.1, by rw [this, hfst]⟩
  have hsub2 : (net.edges.map Edge.dest).dedup ⊆ dgKeys dg := by
    intro k hk
    rw [List.mem_dedup] at hk
    obtain ⟨e, he, hdk⟩ := List.mem_map.mp hk
    rw [← hdk]
    exact h.2.2 e he
  have hle1 : (dgKeys dg).length ≤ ((net.edges.map Edge.dest).dedup).length :=
    (h.1.subperm hsub1).length_le
  have hle2 : ((net.edges.map Edge.dest).dedup).length ≤ (dgKeys dg).length :=
    ((List.nodup_dedup _).subperm hsub2).length_le
  omega

/-- Claim C4: the fabrication loop executes at most one round per node with
incoming edges; each round removes at least one dependency-graph node or the
loop stops (with an error or the terminal stage). -/
theorem c4_rounds_bounded (net : Net) (dg : List (Nat × List Edge))
    (h : IsDepGraphOf dg net.edges) :
    fabRounds net dg ≤ ((net.edges.map Edge.dest).dedup).length := by
  rw [fabRounds]
  by_cases hdg : dg.isEmpty
  · rw [if_pos hdg]
    exact Nat.zero_le _
  · rw [if_neg hdg]
    have hne : dg ≠ [] := by
      intro h0
      rw [h0] at hdg
      simp at hdg
    calc (fabLoopF net (wantedInit net) dg.length dg (availableInit net) [] []).2
        ≤ dg.length := fabLoopF_rounds_le net (wantedInit net) dg.length dg
          (availableInit net) [] [] hne (Nat.le_refl _)
      _ = ((net.edges.map Edge.dest).dedup).length := dg_length_eq_dedup_ends net dg h

/-- Witness for C4 at the two-round chain net. -/
theorem c4_witness :
    IsDepGraphOf c1wdg c1wnet.edges ∧
      fabRounds c1wnet c1wdg ≤ ((c1wnet.edges.map Edge.dest).dedup).length :=
  ⟨by decide, c4_rounds_bounded c1wnet c1wdg (by decide)⟩

/-- A dependency-graph entry whose dependencies are all available but whose
node id is absent from `net.nodes()` makes the scan panic (the `unwrap` on
the node lookup), whatever the current round state. -/
theorem processNode_none_of_missing (net : Net) (avail : List Nat) (st : RoundState)
    (k : Nat) (deps : List Edge)
    (hall : ∀ e ∈ deps, e.start ∈ avail)
    (hmiss : ∀ nd ∈ net.nodes, nd.id ≠ k) :
    processNode net avail st (k, deps) = none := by
  rw [processNode]
  rw [if_pos (by simpa [List.all_eq_true] using hall)]
  have hfind : net.nodes.find? (fun nd => decide (nd.id = k)) = none :=
    List.find?_eq_none.mpr (by intro x hx; simpa using hmiss x hx)
  rw [hfind]

/-- The panic of a single bad entry aborts the whole round scan. -/
theorem processAllNodes_none_of_missing (net : Net) (avail : List Nat) :
    ∀ (dg : List (Nat × List Edge)) (st : RoundState) (k : Nat) (deps : List Edge),
      (k, deps) ∈ dg →
      (∀ e ∈ deps, e.start ∈ avail) →
      (∀ nd ∈ net.nodes, nd.id ≠ k) →
      processAllNodes net avail dg st = none := by
  intro dg
  induction dg with
  | nil => intro st k deps hmem; simp at hmem
  | cons p ps ih =>
    intro st k deps hmem hall hmiss
    rw [processAllNodes]
    rcases List.mem_cons.mp hmem with heq | htail
    · rw [← heq, processNode_none_of_missing net avail st k deps hall hmiss]
    · cases hp : processNode net avail st p with
      | none => rfl
      | some st' => exact ih st' k deps htail hall hmiss

/-- Claim C10: an edge whose end id names no node of the net, all of whose
sources are available from the start, makes `fabricate` panic in round one
(the `unwrap` on the node lookup); the missing node never surfaces through
the `Result` error channel. -/
theorem c10_missing_end_panics (net : Net) (dg : List (Nat × List Edge))
    (h : IsDepGraphOf dg net.edges) (e : Edge) (he : e ∈ net.edges)
    (hmiss : e.dest ∉ net.nodes.map Node.id)
    (hsrc : ∀ e2 ∈ net.edges, e2.dest = e.dest → e2.start ∈ availableInit net) :
    fabricate net dg = FabOutcome.panic := by
  have hk : e.dest ∈ dgKeys dg := h.2.2 e he
  obtain ⟨p, hp, hfst⟩ := List.mem_map.mp hk
  have h1 := (h.2.1 p hp).1
  have hdgne : dg ≠ [] := by
    intro h0
    rw [h0] at hp
    simp at hp
  have hmiss2 : ∀ nd ∈ net.nodes, nd.id ≠ p.1 := by
    intro nd hnd hcontra
    exact hmiss (List.mem_map.mpr ⟨nd, hnd, by rw [hcontra, hfst]⟩)
  have hall : ∀ e2 ∈ p.2, e2.start ∈ availableInit net := by
    intro e2 he2
    rw [h1] at he2
    have h2 := List.mem_filter.mp he2
    exact hsrc e2 h2.1 (by simpa [hfst] using h2.2)
  have hrr : runRound net (wantedInit net) (availableInit net) dg = none := by
    rw [runRound, processAllNodes_none_of_missing net (availableInit net) dg _ p.1 p.2
      (by simpa using hp) hall hmiss2]
    rfl
  rw [fabricate, if_neg (by simp [List.isEmpty_iff, hdgne])]
  cases hfuel : dg.length with
  | zero => exact absurd (List.length_eq_zero.mp hfuel) hdgne
  | succ n =>
    rw [fabLoopF, hrr]

/-- Witness for C10: edge `0 -> 9` of `c10net` ends at id 9, which is no
node; its source is the input 0. -/
theorem c10_witness :
    IsDepGraphOf c10dg c10net.edges ∧
      fabricate c10net c10dg = FabOutcome.panic :=
  ⟨by decide,
    c10_missing_end_panics c10net c10dg (by decide) ⟨0, 9, 1⟩ (by decide) (by decide)
      (by decide)⟩

/-- Claim C6 (amended): initialization sorts the declared input and output
ids but performs no de-duplication — the lists are permutations of the
caller-declared id lists; when the caller honours the `NodeLike` uniqueness
contract (all node ids distinct), the sorted lists are duplicate-free. -/
theorem c6_init_sorted_and_nodup (net : Net)
    (hn : (net.nodes.map Node.id).Nodup) :
    (availableInit net).Sorted (· ≤ ·) ∧ (wantedInit net).Sorted (· ≤ ·) ∧
      (availableInit net).Perm (net.inputs.map Node.id) ∧
      (wantedInit net).Perm (net.outputs.map Node.id) ∧
      (availableInit net).Nodup ∧ (wantedInit net).Nodup := by
  have hmap : net.nodes.map Node.id =
      net.inputs.map Node.id ++ (net.hidden.map Node.id ++ net.outputs.map Node.id) := by
    simp [Net.nodes]
  rw [hmap] at hn
  have hin : (net.inputs.map Node.id).Nodup := (List.nodup_append.mp hn).1
  have hout : (net.outputs.map Node.id).Nodup :=
    (List.nodup_append.mp (List.nodup_append.mp hn).2.1).2.1
  refine ⟨List.sorted_insertionSort _ _, List.sorted_insertionSort _ _,
    List.perm_insertionSort _ _, List.perm_insertionSort _ _, ?_, ?_⟩
  · exact ((List.perm_insertionSort _ _).nodup_iff).mpr hin
  · exact ((List.perm_insertionSort _ _).nodup_iff).mpr hout

/-- Witness for the amended C6 at the chain net (all node ids distinct). -/
theorem c6_witness :
    (c1wnet.nodes.map Node.id).Nodup ∧
      ((availableInit c1wnet).Sorted (· ≤ ·) ∧ (wantedInit c1wnet).Sorted (· ≤ ·) ∧
        (availableInit c1wnet).Perm (c1wnet.inputs.map Node.id) ∧
        (wantedInit c1wnet).Perm (c1wnet.outputs.map Node.id) ∧
        (availableInit c1wnet).Nodup ∧ (wantedInit c1wnet).Nodup) :=
  ⟨by decide, c6_init_sorted_and_nodup c1wnet (by decide)⟩

/-!  Round-scan invariants (towards the amended claim C1). -/

/-- Pushing a guarded carry (an available node not yet scheduled) preserves
the scan invariant. -/
theorem ScanInv.push_avail (wanted avail seen : List Nat) (st : RoundState)
    (col : List Int) (tr : Transform) (a : Nat)
    (ha : a ∈ avail) (hnotin : a ∉ st.nextAvail)
    (hinv : ScanInv wanted avail seen st) :
    ScanInv wanted avail seen
      ⟨st.stage ++ [col], st.transfs ++ [tr], st.nextAvail ++ [a]⟩ := by
  obtain ⟨h1, h2, h3, h4⟩ := hinv
  refine ⟨by simp [h1], by simp [h2], ?_, ?_⟩
  · rw [List.filter_append]
    by_cases hw : a ∈ wanted
    · have heq : (List.filter (fun a => decide (a ∈ wanted)) [a]) = [a] := by simp [hw]
      rw [heq, List.nodup_append]
      refine ⟨h3, by simp, ?_⟩
      intro x hx hx2
      simp at hx2
      subst hx2
      exact hnotin (List.mem_filter.mp hx).1
    · have heq : (List.filter (fun a => decide (a ∈ wanted)) [a]) = [] := by simp [hw]
      rw [heq, List.append_nil]
      exact h3
  · intro x hx
    rcases List.mem_append.mp hx with h | h
    · exact h4 x h
    · simp at h
      subst h
      exact Or.inl ha

/-- The scan invariant is monotone in the `seen` list. -/
theorem ScanInv.mono (wanted avail seen seen' : List Nat) (st : RoundState)
    (hsub : seen ⊆ seen') (hinv : ScanInv wanted avail seen st) :
    ScanInv wanted avail seen' st := by
  obtain ⟨h1, h2, h3, h4⟩ := hinv
  refine ⟨h1, h2, h3, ?_⟩
  intro x hx
  rcases h4 x hx with h | h
  · exact Or.inl h
  · exact Or.inr (hsub h)

/-- The carry sub-loop preserves the scan invariant (it pushes only
available nodes, each guarded against double scheduling). -/
theorem addCarries_inv (n : Nat) (wanted avail seen : List Nat) :
    ∀ (as : List Nat) (i : Nat) (ws : List (Option Int)) (st : RoundState),
      (∀ a ∈ as, a ∈ avail) →
      ScanInv wanted avail seen st →
      ScanInv wanted avail seen (addCarries n i as ws st) := by
  intro as
  induction as with
  | nil => intro i ws st _ hinv; cases ws <;> simpa [addCarries] using hinv
  | cons a rest ih =>
    intro i ws st hsub hinv
    cases ws with
    | nil => simpa [addCarries] using hinv
    | cons w ws' =>
      rw [addCarries]
      by_cases hc : w.isSome ∧ a ∉ st.nextAvail
      · rw [if_pos hc]
        exact ih (i + 1) ws' _ (fun x hx => hsub x (List.mem_cons_of_mem a hx))
          (ScanInv.push_avail wanted avail seen st _ _ a (hsub a (by simp)) hc.2 hinv)
      · rw [if_neg hc]
        exact ih (i + 1) ws' _ (fun x hx => hsub x (List.mem_cons_of_mem a hx)) hinv

/-- The wanted-carry inner loop preserves the scan invariant. -/
theorem addWantedForOne_inv (n w : Nat) (wanted avail seen : List Nat) :
    ∀ (as : List Nat) (i : Nat) (st : RoundState),
      (∀ a ∈ as, a ∈ avail) →
      ScanInv wanted avail seen st →
      ScanInv wanted avail seen (addWantedForOne n w i as st) := by
  intro as
  induction as with
  | nil => intro i st _ hinv; simpa [addWantedForOne] using hinv
  | cons a rest ih =>
    intro i st hsub hinv
    rw [addWantedForOne]
    by_cases hc : a = w ∧ a ∉ st.nextAvail
    · rw [if_pos hc]
      exact ih (i + 1) _ (fun x hx => hsub x (List.mem_cons_of_mem a hx))
        (ScanInv.push_avail wanted avail seen st _ _ a (hsub a (by simp)) hc.2 hinv)
    · rw [if_neg hc]
      exact ih (i + 1) _ (fun x hx => hsub x (List.mem_cons_of_mem a hx)) hinv

/-- The wanted-carry pass preserves the scan invariant. -/
theorem addWantedCarries_inv (wanted avail seen : List Nat) :
    ∀ (ws : List Nat) (st : RoundState),
      ScanInv wanted avail seen st →
      ScanInv wanted avail seen (addWantedCarries avail ws st) := by
  intro ws
  induction ws with
  | nil => intro st hinv; simpa [addWantedCarries] using hinv
  | cons w rest ih =>
    intro st hinv
    rw [addWantedCarries]
    exact ih _ (addWantedForOne_inv avail.length w wanted avail seen avail 0 st
      (fun a ha => ha) hinv)

/-- Processing one dependency-graph entry preserves the scan invariant,
extending `seen` by the entry's key.  The key may only be produced if it was
not yet scheduled as a wanted carry: an available key is never wanted (the
hypothesis `hkw`), and a key is processed only once per round. -/
theorem processNode_inv (net : Net) (wanted avail seen : List Nat)
    (st st' : RoundState) (k : Nat) (deps : List Edge)
    (hp : processNode net avail st (k, deps) = some st')
    (hkw : k ∈ avail → k ∉ wanted)
    (hkseen : k ∉ seen)
    (hinv : ScanInv wanted avail seen st) :
    ScanInv wanted avail (seen ++ [k]) st' := by
  rw [processNode] at hp
  by_cases hcomp : (deps.all fun e => decide (e.start ∈ avail)) = true
  · rw [if_pos hcomp] at hp
    cases hf : net.nodes.find? fun nd => decide (nd.id = k) with
    | none => rw [hf] at hp; exact absurd hp (by simp)
    | some nd =>
      rw [hf] at hp
      simp only [Option.some_inj] at hp
      subst hp
      obtain ⟨h1, h2, h3, h4⟩ := hinv
      refine ⟨by simp [h1], by simp [h2], ?_, ?_⟩
      · rw [List.filter_append]
        by_cases hw : k ∈ wanted
        · have heq : (List.filter (fun a => decide (a ∈ wanted)) [k]) = [k] := by simp [hw]
          rw [heq, List.nodup_append]
          refine ⟨h3, by simp, ?_⟩
          intro x hx hx2
          simp at hx2
          subst hx2
          have hxn := (List.mem_filter.mp hx).1
          rcases h4 x hxn with hav | hseen
          · exact hkw hav hw
          · exact hkseen hseen
        · have heq : (List.filter (fun a => decide (a ∈ wanted)) [k]) = [] := by simp [hw]
          rw [heq, List.append_nil]
          exact h3
      · intro x hx
        rcases List.mem_append.mp hx with h | h
        · rcases h4 x h with hav | hseen
          · exact Or.inl hav
          · exact Or.inr (by simp [hseen])
        · simp at h
          subst h
          exact Or.inr (by simp)
  · rw [if_neg hcomp] at hp
    simp only [Option.some_inj] at hp
    subst hp
    exact ScanInv.mono wanted avail seen (seen ++ [k]) _ (by intro x hx; simp [hx])
      (addCarries_inv avail.length wanted avail seen avail 0 _ st (fun a ha => ha) hinv)

/-- The whole per-round dependency scan preserves the scan invariant,
extending `seen` by the processed keys. -/
theorem processAllNodes_inv (net : Net) (wanted avail : List Nat) :
    ∀ (dg : List (Nat × List Edge)) (seen : List Nat) (st st' : RoundState),
      processAllNodes net avail dg st = some st' →
      (seen ++ dgKeys dg).Nodup →
      (∀ k ∈ dgKeys dg, k ∈ avail → k ∉ wanted) →
      ScanInv wanted avail seen st →
      ScanInv wanted avail (seen ++ dgKeys dg) st' := by
  intro dg
  induction dg with
  | nil =>
    intro seen st st' hp _ _ hinv
    rw [processAllNodes] at hp
    simp only [Option.some_inj] at hp
    subst hp
    simpa [dgKeys] using hinv
  | cons p ps ih =>
    intro seen st st' hp hnd hw hinv
    rw [processAllNodes] at hp
    cases hpn : processNode net avail st p with
    | none => rw [hpn] at hp; exact absurd hp (by simp)
    | some st1 =>
      rw [hpn] at hp
      have hkeys : dgKeys (p :: ps) = p.1 :: dgKeys ps := rfl
      have hkseen : p.1 ∉ seen := by
        rw [hkeys] at hnd
        intro hmem
        have := List.nodup_append.mp hnd
        exact this.2.2 hmem (by simp)
      have hinv1 : ScanInv wanted avail (seen ++ [p.1]) st1 :=
        processNode_inv net wanted avail seen st st1 p.1 p.2 (by rw [← hpn]) 
          (hw p.1 (by rw [hkeys]; simp)) hkseen hinv
      have hnd1 : ((seen ++ [p.1]) ++ dgKeys ps).Nodup := by
        rw [List.append_assoc]
        exact hnd
      have := ih (seen ++ [p.1]) st1 st' hp hnd1
        (fun k hk => hw k (by rw [hkeys]; exact List.mem_cons_of_mem _ hk)) hinv1
      rw [List.append_assoc] at this
      exact this

/-- A successful round, run on a dependency graph with distinct keys none of
which is an available wanted node, yields a well-formed round state. -/
theorem runRound_ok (net : Net) (wanted avail : List Nat)
    (dg : List (Nat × List Edge)) (st : RoundState)
    (hr : runRound net wanted avail dg = some st)
    (hk : (dgKeys dg).Nodup)
    (hw : ∀ k ∈ dgKeys dg, k ∈ avail → k ∉ wanted) :
    RoundStateOK wanted st := by
  rw [runRound] at hr
  cases hpa : processAllNodes net avail dg ⟨[], [], []⟩ with
  | none => rw [hpa] at hr; exact absurd hr (by simp)
  | some st0 =>
    rw [hpa] at hr
    have hr2 : addWantedCarries avail wanted st0 = st := by simpa using hr
    subst hr2
    have hinv0 : ScanInv wanted avail [] ⟨[], [], []⟩ := by
      refine ⟨rfl, rfl, by simp, by simp⟩
    have hinv := processAllNodes_inv net wanted avail dg [] ⟨[], [], []⟩ st0 hpa
      (by simpa using hk) hw hinv0
    have hfinal := addWantedCarries_inv wanted avail (dgKeys dg) wanted st0 hinv
    exact ⟨hfinal.1, hfinal.2.1, hfinal.2.2.1⟩

/-!  The terminal reorder walk. -/

/-- The inner wanted scan finds no index exactly for non-wanted ids. -/
theorem firstIdxFrom_none_iff (a : Nat) :
    ∀ (wanted : List Nat), firstIdxFrom wanted a = none ↔ a ∉ wanted := by
  intro wanted
  induction wanted with
  | nil => simp [firstIdxFrom]
  | cons w ws ih =>
    rw [firstIdxFrom]
    by_cases hw : w = a
    · simp [hw]
    · rw [if_neg hw]
      constructor
      · intro h hmem
        rcases List.mem_cons.mp hmem with h1 | h2
        · exact hw h1.symm
        · have hn : firstIdxFrom ws a = none := by
            cases hfi : firstIdxFrom ws a with
            | none => rfl
            | some i => rw [hfi] at h; exact absurd h (by simp)
          exact (ih.mp hn) h2
      · intro h
        have h2 : a ∉ ws := fun hmem => h (List.mem_cons_of_mem _ hmem)
        rw [ih.mpr h2]
        rfl

/-- The found index points at the id searched for. -/
theorem firstIdxFrom_some_getElem (a : Nat) :
    ∀ (wanted : List Nat) (i : Nat), firstIdxFrom wanted a = some i →
      wanted[i]? = some a := by
  intro wanted
  induction wanted with
  | nil => intro i h; simp [firstIdxFrom] at h
  | cons w ws ih =>
    intro i h
    rw [firstIdxFrom] at h
    by_cases hw : w = a
    · rw [if_pos hw] at h
      have h0 : i = 0 := by
        have h2 := h
        simp at h2
        omega
      subst h0
      simp [hw]
    · rw [if_neg hw] at h
      cases hfi : firstIdxFrom ws a with
      | none => rw [hfi] at h; exact absurd h (by simp)
      | some j =>
        rw [hfi] at h
        have hij : i = j + 1 := by
          have h2 := h
          simp at h2
          omega
        subst hij
        simpa using ih j hfi

/-- Under a duplicate-free wanted list the scan returns exactly the index
holding the searched id. -/
theorem firstIdxFrom_eq_of_nodup (wanted : List Nat) (k a : Nat)
    (hnd : wanted.Nodup) (hk : wanted[k]? = some a) :
    firstIdxFrom wanted a = some k := by
  have hmem : a ∈ wanted := List.getElem?_mem hk
  cases hfi : firstIdxFrom wanted a with
  | none => exact absurd hmem ((firstIdxFrom_none_iff a wanted).mp hfi)
  | some i =>
    have hi := firstIdxFrom_some_getElem a wanted i hfi
    have hlt : i < wanted.length := by
      rcases List.getElem?_eq_some.mp hi with ⟨h, _⟩
      exact h
    have h2 : wanted[i]? = wanted[k]? := by rw [hi, hk]
    have h3 := List.getElem?_inj hlt hnd h2
    rw [h3]

/-- A reorder step keeps the lengths of the reordered matrix and
transformation list. -/
theorem reorderStep_lengths (wanted : List Nat)
    (acc res : Stage × List Transform × Nat) (x : (Nat × List Int) × Transform)
    (h : reorderStep wanted acc x = some res) :
    res.1.length = acc.1.length ∧ res.2.1.length = acc.2.1.length := by
  rw [reorderStep] at h
  split at h
  · simp only [Option.some_inj] at h
    subst h
    exact ⟨rfl, rfl⟩
  · split at h
    · split at h
      · simp only [Option.some_inj] at h
        subst h
        simp
      · exact absurd h (by simp)
    · exact absurd h (by simp)

/-- A reorder step increments the counter exactly on wanted ids. -/
theorem reorderStep_count (wanted : List Nat)
    (acc res : Stage × List Transform × Nat) (x : (Nat × List Int) × Transform)
    (h : reorderStep wanted acc x = some res) :
    res.2.2 = acc.2.2 + (if x.1.1 ∈ wanted then 1 else 0) := by
  rw [reorderStep] at h
  split at h
  · rename_i hfi
    have hnm : x.1.1 ∉ wanted := (firstIdxFrom_none_iff _ _).mp hfi
    simp only [Option.some_inj] at h
    subst h
    simp [hnm]
  · rename_i i hfi
    have hm : x.1.1 ∈ wanted := by
      by_contra hnm
      rw [(firstIdxFrom_none_iff _ _).mpr hnm] at hfi
      exact absurd hfi (by simp)
    split at h
    · split at h
      · simp only [Option.some_inj] at h
        subst h
        simp [hm]
      · exact absurd h (by simp)
    · exact absurd h (by simp)

/-- The reorder walk rewrites in place: result lengths equal the clones'. -/
theorem reorderFold_lengths (wanted : List Nat) :
    ∀ (l : List ((Nat × List Int) × Transform)) (acc res : Stage × List Transform × Nat),
      reorderFold wanted l acc = some res →
      res.1.length = acc.1.length ∧ res.2.1.length = acc.2.1.length := by
  intro l
  induction l with
  | nil =>
    intro acc res h
    have h2 : some acc = some res := h
    simp only [Option.some_inj] at h2
    subst h2
    exact ⟨rfl, rfl⟩
  | cons x xs ih =>
    intro acc res h
    rw [reorderFold] at h
    cases hs : reorderStep wanted acc x with
    | none =>
      rw [hs] at h
      exact absurd h (by simp)
    | some acc2 =>
      rw [hs] at h
      have h2 : reorderFold wanted xs acc2 = some res := h
      have ha := ih acc2 res h2
      have hb := reorderStep_lengths wanted acc acc2 x hs
      exact ⟨ha.1.trans hb.1, ha.2.trans hb.2⟩

/-- The match counter counts exactly the processed triples whose id occurs
in the wanted list. -/
theorem reorderFold_count (wanted : List Nat) :
    ∀ (l : List ((Nat × List Int) × Transform)) (acc res : Stage × List Transform × Nat),
      reorderFold wanted l acc = some res →
      res.2.2 = acc.2.2 + l.countP (fun x => decide (x.1.1 ∈ wanted)) := by
  intro l
  induction l with
  | nil =>
    intro acc res h
    have h2 : some acc = some res := h
    simp only [Option.some_inj] at h2
    subst h2
    simp
  | cons x xs ih =>
    intro acc res h
    rw [reorderFold] at h
    cases hs : reorderStep wanted acc x with
    | none =>
      rw [hs] at h
      exact absurd h (by simp)
    | some acc2 =>
      rw [hs] at h
      have h2 : reorderFold wanted xs acc2 = some res := h
      have ha := ih acc2 res h2
      have hb := reorderStep_count wanted acc acc2 x hs
      by_cases hm : x.1.1 ∈ wanted
      · rw [List.countP_cons_of_pos _ _ (by simpa using hm)]
        rw [hb, if_pos hm] at ha
        omega
      · rw [List.countP_cons_of_neg _ _ (by simpa using hm)]
        rw [hb, if_neg hm] at ha
        omega

/-- A reorder step driven by a triple whose id is not `wanted[k]` leaves
position `k` untouched. -/
theorem reorderStep_preserve (wanted : List Nat) (k wk : Nat)
    (hk : wanted[k]? = some wk)
    (acc res : Stage × List Transform × Nat) (x : (Nat × List Int) × Transform)
    (h : reorderStep wanted acc x = some res) (hne : x.1.1 ≠ wk) :
    res.1[k]? = acc.1[k]? ∧ res.2.1[k]? = acc.2.1[k]? := by
  rw [reorderStep] at h
  split at h
  · simp only [Option.some_inj] at h
    subst h
    exact ⟨rfl, rfl⟩
  · rename_i i hfi
    have hgi := firstIdxFrom_some_getElem _ _ _ hfi
    have hik : i ≠ k := by
      intro hik
      rw [hik, hk] at hgi
      exact hne (Option.some_inj.mp hgi).symm
    split at h
    · split at h
      · simp only [Option.some_inj] at h
        subst h
        exact ⟨List.getElem?_set_ne hik, List.getElem?_set_ne hik⟩
      · exact absurd h (by simp)
    · exact absurd h (by simp)

/-- Walking triples none of which carries the id `wanted[k]` leaves
position `k` untouched. -/
theorem reorderFold_preserve (wanted : List Nat) (k wk : Nat)
    (hk : wanted[k]? = some wk) :
    ∀ (l : List ((Nat × List Int) × Transform)) (acc res : Stage × List Transform × Nat),
      reorderFold wanted l acc = some res →
      (∀ x ∈ l, x.1.1 ≠ wk) →
      res.1[k]? = acc.1[k]? ∧ res.2.1[k]? = acc.2.1[k]? := by
  intro l
  induction l with
  | nil =>
    intro acc res h _
    have h2 : some acc = some res := h
    simp only [Option.some_inj] at h2
    subst h2
    exact ⟨rfl, rfl⟩
  | cons x xs ih =>
    intro acc res h hne
    rw [reorderFold] at h
    cases hs : reorderStep wanted acc x with
    | none =>
      rw [hs] at h
      exact absurd h (by simp)
    | some acc2 =>
      rw [hs] at h
      have h2 : reorderFold wanted xs acc2 = some res := h
      have ha := ih acc2 res h2 (fun y hy => hne y (List.mem_cons_of_mem _ hy))
      have hb := reorderStep_preserve wanted k wk hk acc acc2 x hs (hne x (by simp))
      exact ⟨ha.1.trans hb.1, ha.2.trans hb.2⟩

/-- A reorder step driven by the (unique) triple carrying `wanted[k]` writes
that triple's column and transformation at position `k`. -/
theorem reorderStep_write (wanted : List Nat) (k wk : Nat)
    (hnd : wanted.Nodup) (hk : wanted[k]? = some wk)
    (acc res : Stage × List Transform × Nat) (x : (Nat × List Int) × Transform)
    (h : reorderStep wanted acc x = some res) (hx : x.1.1 = wk) :
    res.1[k]? = some x.1.2 ∧ res.2.1[k]? = some x.2 := by
  rw [reorderStep] at h
  split at h
  · rename_i hfi
    rw [hx, firstIdxFrom_eq_of_nodup wanted k wk hnd hk] at hfi
    exact absurd hfi (by simp)
  · rename_i i hfi
    rw [hx, firstIdxFrom_eq_of_nodup wanted k wk hnd hk] at hfi
    have hik : i = k := (Option.some_inj.mp hfi).symm
    subst hik
    split at h
    · rename_i h1
      split at h
      · rename_i h2
        simp only [Option.some_inj] at h
        subst h
        exact ⟨List.getElem?_set_self h1, List.getElem?_set_self h2⟩
      · exact absurd h (by simp)
    · exact absurd h (by simp)

/-- The reorder walk splits across list concatenation. -/
theorem reorderFold_split (wanted : List Nat) :
    ∀ (l1 l2 : List ((Nat × List Int) × Transform))
      (acc res : Stage × List Transform × Nat),
      reorderFold wanted (l1 ++ l2) acc = some res →
      ∃ mid, reorderFold wanted l1 acc = some mid ∧ reorderFold wanted l2 mid = some res := by
  intro l1
  induction l1 with
  | nil =>
    intro l2 acc res h
    exact ⟨acc, rfl, h⟩
  | cons x xs ih =>
    intro l2 acc res h
    rw [List.cons_append, reorderFold] at h
    cases hs : reorderStep wanted acc x with
    | none =>
      rw [hs] at h
      exact absurd h (by simp)
    | some acc2 =>
      rw [hs] at h
      have h2 : reorderFold wanted (xs ++ l2) acc2 = some res := h
      obtain ⟨mid, hm1, hm2⟩ := ih l2 acc2 res h2
      refine ⟨mid, ?_, hm2⟩
      rw [reorderFold, hs]
      exact hm1

/-- If a list holds at least `|W|` entries from a duplicate-free list `W`,
counted with multiplicity but themselves duplicate-free, then it holds every
member of `W`. -/
theorem mem_of_countP_ge (A W : List Nat) (hW : W.Nodup)
    (hA : (A.filter fun a => decide (a ∈ W)).Nodup)
    (hc : W.length ≤ A.countP fun a => decide (a ∈ W)) :
    ∀ w ∈ W, w ∈ A := by
  intro w hw
  by_contra hna
  have hsub : (A.filter fun a => decide (a ∈ W)) ⊆ W.erase w := by
    intro x hx
    have hx1 := List.mem_filter.mp hx
    have hxW : x ∈ W := by simpa using hx1.2
    have hxw : x ≠ w := by
      rintro rfl
      exact hna hx1.1
    exact (List.mem_erase_of_ne hxw).mpr hxW
  have hlen : (A.filter fun a => decide (a ∈ W)).length ≤ (W.erase w).length :=
    (hA.subperm hsub).length_le
  rw [List.countP_eq_length_filter] at hc
  rw [List.length_erase_of_mem hw] at hlen
  have hWpos : 1 ≤ W.length := by
    cases W with
    | nil => simp at hw
    | cons a l => simp
  omega

/-- Split a list at the last element whose image under `f` is `b`. -/
theorem exists_last_occurrence {α β : Type} (f : α → β) (b : β) :
    ∀ (l : List α), b ∈ l.map f →
      ∃ l1 x l2, l = l1 ++ x :: l2 ∧ f x = b ∧ ∀ y ∈ l2, f y ≠ b := by
  intro l
  induction l with
  | nil => simp
  | cons z rest ih =>
    intro hb
    by_cases hr : b ∈ rest.map f
    · obtain ⟨l1, x, l2, heq, hfx, hl2⟩ := ih hr
      exact ⟨z :: l1, x, l2, by rw [heq]; rfl, hfx, hl2⟩
    · have hz : f z = b := by
        rcases List.mem_map.mp hb with ⟨y, hy, hfy⟩
        rcases List.mem_cons.mp hy with h1 | h2
        · rw [h1] at hfy
          exact hfy
        · exact absurd (List.mem_map.mpr ⟨y, h2, hfy⟩) hr
      refine ⟨[], z, rest, rfl, hz, ?_⟩
      intro y hy hfy
      exact hr (List.mem_map.mpr ⟨y, hy, hfy⟩)

/-- Indexing a concatenation at the length of its left part. -/
theorem getElem?_append_cons {α : Type} (x : α) :
    ∀ (u v : List α), (u ++ x :: v)[u.length]? = some x := by
  intro u
  induction u with
  | nil => intro v; simp
  | cons a u' ih => intro v; simpa using ih v

/-- Every successful run of the fabrication loop ends in a terminal round:
a round whose removal empties the dependency graph, whose reorder succeeded
matching at least every wanted slot, and whose reordered stage and
transformations are the last entries of the result.  The side conditions
(duplicate-free keys; no available key is wanted) propagate because removal
deletes exactly the produced/carried nodes from the graph. -/
theorem fabLoopF_ok_terminal (net : Net) (wanted : List Nat) :
    ∀ (fuel : Nat) (dg : List (Nat × List Edge)) (avail : List Nat)
      (accS : List Stage) (accT : List (List Transform))
      (S : List Stage) (T : List (List Transform)),
      (fabLoopF net wanted fuel dg avail accS accT).1 = FabOutcome.ok S T →
      (dgKeys dg).Nodup →
      (∀ k ∈ dgKeys dg, k ∈ avail → k ∉ wanted) →
      ∃ dgL availL st m tt matched,
        (dgKeys dgL).Nodup ∧
        (∀ k ∈ dgKeys dgL, k ∈ availL → k ∉ wanted) ∧
        runRound net wanted availL dgL = some st ∧
        (dgL.filter fun p => decide (p.1 ∉ st.nextAvail)).isEmpty = true ∧
        reorderStage wanted st = some (m, tt, matched) ∧
        wanted.length ≤ matched ∧
        S.getLast? = some m ∧ T.getLast? = some tt := by
  intro fuel
  induction fuel with
  | zero =>
    intro dg avail accS accT S T hok _ _
    simp [fabLoopF] at hok
  | succ n ih =>
    intro dg avail accS accT S T hok hnd hw
    rw [fabLoopF] at hok
    revert hok
    cases hr : runRound net wanted avail dg with
    | none => intro hok; exact absurd hok (by simp)
    | some st =>
      simp only
      split
      · intro hok
        exact absurd hok (by simp)
      · split
        · rename_i hlen hemp
          cases hre : reorderStage wanted st with
          | none => intro hok; exact absurd hok (by simp)
          | some x =>
            obtain ⟨m, tt, matched⟩ := x
            simp only
            split
            · intro hok
              exact absurd hok (by simp)
            · rename_i hm
              intro hok
              have h1 : accS ++ [m] = S := by
                injection hok
              have h2 : accT ++ [tt] = T := by
                injection hok with ha hb
              refine ⟨dg, avail, st, m, tt, matched, hnd, hw, hr, hemp, hre, ?_, ?_, ?_⟩
              · omega
              · rw [← h1]
                exact List.getLast?_concat _
              · rw [← h2]
                exact List.getLast?_concat _
        · rename_i hlen hemp
          intro hok
          have hok2 : (fabLoopF net wanted n (dg.filter fun p => decide (p.1 ∉ st.nextAvail))
              st.nextAvail (accS ++ [st.stage]) (accT ++ [st.transfs])).1 =
              FabOutcome.ok S T := hok
          have hsub : List.Sublist (dgKeys (dg.filter fun p => decide (p.1 ∉ st.nextAvail)))
              (dgKeys dg) :=
            (List.filter_sublist dg).map Prod.fst
          have hnd2 : (dgKeys (dg.filter fun p => decide (p.1 ∉ st.nextAvail))).Nodup :=
            List.Nodup.sublist hsub hnd
          have hw2 : ∀ k ∈ dgKeys (dg.filter fun p => decide (p.1 ∉ st.nextAvail)),
              k ∈ st.nextAvail → k ∉ wanted := by
            intro k hk hkn
            obtain ⟨p, hp, hfst⟩ := List.mem_map.mp hk
            have hcond := (List.mem_filter.mp hp).2
            have : p.1 ∉ st.nextAvail := by simpa using hcond
            rw [hfst] at this
            exact absurd hkn this
          exact ih _ _ _ _ S T hok2 hnd2 hw2

/-- Projections of the doubly zipped triple list of the terminal reorder. -/
theorem zip2_proj (A : List Nat) (B : Stage) (C : List Transform)
    (hB : B.length = A.length) (hC : C.length = A.length) :
    ((A.zip B).zip C).map (fun x => x.1.1) = A ∧
      ((A.zip B).zip C).map (fun x => x.1.2) = B ∧
      ((A.zip B).zip C).map (fun x => x.2) = C := by
  have hzl : (A.zip B).length = A.length := by
    rw [List.length_zip, hB]
    omega
  have h1 : List.map Prod.fst ((A.zip B).zip C) = A.zip B :=
    List.map_fst_zip _ _ (by rw [hzl, hC])
  have h2 : List.map Prod.fst (A.zip B) = A :=
    List.map_fst_zip _ _ (by rw [hB])
  have h3 : List.map Prod.snd (A.zip B) = B :=
    List.map_snd_zip _ _ (by rw [hB])
  have h4 : List.map Prod.snd ((A.zip B).zip C) = C :=
    List.map_snd_zip _ _ (by rw [hzl, hC])
  refine ⟨?_, ?_, ?_⟩
  · have : ((A.zip B).zip C).map (fun x => x.1.1) =
        List.map Prod.fst (List.map Prod.fst ((A.zip B).zip C)) := by
      rw [List.map_map]
      rfl
    rw [this, h1, h2]
  · have : ((A.zip B).zip C).map (fun x => x.1.2) =
        List.map Prod.snd (List.map Prod.fst ((A.zip B).zip C)) := by
      rw [List.map_map]
      rfl
    rw [this, h1, h3]
  · exact h4

/-- Specification of a successful terminal reorder that matched at least
every wanted slot: the reordered matrix keeps the round's column count, and
each wanted position `k` holds exactly the column and transformation that
the round built for the node `wanted[k]`. -/
theorem reorderStage_spec (wanted : List Nat) (st : RoundState)
    (M : Stage) (TT : List Transform) (matched : Nat)
    (hwnd : wanted.Nodup)
    (hok : RoundStateOK wanted st)
    (hre : reorderStage wanted st = some (M, TT, matched))
    (hm : wanted.length ≤ matched) :
    M.length = st.nextAvail.length ∧
      wanted.length ≤ M.length ∧
      ∀ (k wk : Nat), wanted[k]? = some wk →
        ∃ j : Nat, st.nextAvail[j]? = some wk ∧ M[k]? = st.stage[j]? ∧
          TT[k]? = st.transfs[j]? := by
  obtain ⟨hl1, hl2, hfn⟩ := hok
  rw [reorderStage] at hre
  obtain ⟨hp1, hp2, hp3⟩ := zip2_proj st.nextAvail st.stage st.transfs hl1 hl2
  have hlen := reorderFold_lengths wanted _ _ _ hre
  have hMlen : M.length = st.nextAvail.length := by
    have h1 : M.length = st.stage.length := hlen.1
    omega
  have hcnt := reorderFold_count wanted _ _ _ hre
  have hcnt1 : matched =
      List.countP (fun x => decide (x.1.1 ∈ wanted))
        ((st.nextAvail.zip st.stage).zip st.transfs) := by
    simpa using hcnt
  have hcnt2 : List.countP (fun x => decide (x.1.1 ∈ wanted))
      ((st.nextAvail.zip st.stage).zip st.transfs) =
      List.countP (fun a => decide (a ∈ wanted)) st.nextAvail := by
    conv_rhs => rw [← hp1]
    rw [List.countP_map]
    rfl
  have hmemw : ∀ w ∈ wanted, w ∈ st.nextAvail := by
    refine mem_of_countP_ge st.nextAvail wanted hwnd hfn ?_
    omega
  have hwsub : wanted ⊆ st.nextAvail := fun w hw => hmemw w hw
  have hwlen : wanted.length ≤ st.nextAvail.length := (hwnd.subperm hwsub).length_le
  refine ⟨hMlen, by omega, ?_⟩
  intro k wk hk
  have hwkw : wk ∈ wanted := List.getElem?_mem hk
  have hwkA : wk ∈ st.nextAvail := hmemw wk hwkw
  have hwkl : wk ∈ (((st.nextAvail.zip st.stage).zip st.transfs).map fun x => x.1.1) := by
    rw [hp1]
    exact hwkA
  obtain ⟨l1, x0, l2, hldec, hx0, hl2m⟩ :=
    exists_last_occurrence (fun x : (Nat × List Int) × Transform => x.1.1) wk _ hwkl
  have hre2 := hre
  rw [hldec] at hre2
  obtain ⟨mid, hmid1, hmid2⟩ := reorderFold_split wanted l1 (x0 :: l2) _ _ hre2
  rw [reorderFold] at hmid2
  cases hs : reorderStep wanted mid x0 with
  | none =>
    rw [hs] at hmid2
    exact absurd hmid2 (by simp)
  | some acc2 =>
    rw [hs] at hmid2
    have hm2 : reorderFold wanted l2 acc2 = some (M, TT, matched) := hmid2
    have hwrite := reorderStep_write wanted k wk hwnd hk mid acc2 x0 hs hx0
    have hpres := reorderFold_preserve wanted k wk hk l2 acc2 _ hm2 hl2m
    have hMk : M[k]? = acc2.1[k]? := hpres.1
    have hTk : TT[k]? = acc2.2.1[k]? := hpres.2
    have hnav : st.nextAvail =
        (l1.map fun x => x.1.1) ++ x0.1.1 :: (l2.map fun x => x.1.1) := by
      rw [← hp1, hldec, List.map_append, List.map_cons]
    rw [hx0] at hnav
    have hstg : st.stage =
        (l1.map fun x => x.1.2) ++ x0.1.2 :: (l2.map fun x => x.1.2) := by
      rw [← hp2, hldec, List.map_append, List.map_cons]
    have htrf : st.transfs =
        (l1.map fun x => x.2) ++ x0.2 :: (l2.map fun x => x.2) := by
      rw [← hp3, hldec, List.map_append, List.map_cons]
    refine ⟨l1.length, ?_, ?_, ?_⟩
    · rw [hnav]
      have hg := getElem?_append_cons wk (l1.map fun x => x.1.1) (l2.map fun x => x.1.1)
      rwa [List.length_map] at hg
    · rw [hMk, hwrite.1, hstg]
      have hg := getElem?_append_cons x0.1.2 (l1.map fun x => x.1.2)
        (l2.map fun x => x.1.2)
      rw [List.length_map] at hg
      exact hg.symm
    · rw [hTk, hwrite.2, htrf]
      have hg := getElem?_append_cons x0.2 (l1.map fun x => x.2) (l2.map fun x => x.2)
      rw [List.length_map] at hg
      exact hg.symm

/-- Claim C1 (amended): on every successfully fabricated net (valid
dependency map, node ids unique as `NodeLike` requires), the evaluator has
at least one stage, and the final stage is the reorder of a terminal round
(a round whose removal empties the dependency graph): for every `k` the
column and transformation at position `k` are exactly those built for the
node `wantedInit net k` — the `k`-th declared output id in *sorted id
order* — while positions from `|wanted|` up to the round's column count may
keep leftover (non-output) columns of the terminal round. -/
theorem c1_success_stage_shape (net : Net) (dg : List (Nat × List Edge))
    (S : List Stage) (T : List (List Transform))
    (hdg : IsDepGraphOf dg net.edges)
    (hn : (net.nodes.map Node.id).Nodup)
    (hok : fabricate net dg = FabOutcome.ok S T) :
    1 ≤ S.length ∧
      ∃ dgL availL st M TT matched,
        runRound net (wantedInit net) availL dgL = some st ∧
        (dgL.filter fun p => decide (p.1 ∉ st.nextAvail)).isEmpty = true ∧
        reorderStage (wantedInit net) st = some (M, TT, matched) ∧
        S.getLast? = some M ∧ T.getLast? = some TT ∧
        M.length = st.nextAvail.length ∧
        (wantedInit net).length ≤ M.length ∧
        ∀ (k wk : Nat), (wantedInit net)[k]? = some wk →
          ∃ j : Nat, st.nextAvail[j]? = some wk ∧ M[k]? = st.stage[j]? ∧
            TT[k]? = st.transfs[j]? := by
  have hmap : net.nodes.map Node.id =
      net.inputs.map Node.id ++ (net.hidden.map Node.id ++ net.outputs.map Node.id) := by
    simp [Net.nodes]
  rw [hmap] at hn
  have hout : (net.outputs.map Node.id).Nodup :=
    (List.nodup_append.mp (List.nodup_append.mp hn).2.1).2.1
  have hdisj := (List.nodup_append.mp hn).2.2
  have hwnd : (wantedInit net).Nodup :=
    ((List.perm_insertionSort _ _).nodup_iff).mpr hout
  have hw1 : ∀ k ∈ dgKeys dg, k ∈ availableInit net → k ∉ wantedInit net := by
    intro k _ hav hwant
    have hkin : k ∈ net.inputs.map Node.id := by
      simpa [availableInit] using hav
    have hkout : k ∈ net.outputs.map Node.id := by
      simpa [wantedInit] using hwant
    exact hdisj hkin (List.mem_append.mpr (Or.inr hkout))
  have hne : ¬ dg.isEmpty := by
    intro hemp
    rw [fabricate, if_pos hemp] at hok
    exact absurd hok (by simp)
  rw [fabricate, if_neg hne] at hok
  obtain ⟨dgL, availL, st, m, tt, matched, hndL, hwL, hrr, hempL, hre, hm, hSl, hTl⟩ :=
    fabLoopF_ok_terminal net (wantedInit net) dg.length dg (availableInit net) [] []
      S T hok hdg.1 hw1
  have hokr := runRound_ok net (wantedInit net) availL dgL st hrr hndL hwL
  have hspec := reorderStage_spec (wantedInit net) st m tt matched hwnd hokr hre hm
  refine ⟨?_, dgL, availL, st, m, tt, matched, hrr, hempL, hre, hSl, hTl,
    hspec.1, hspec.2.1, hspec.2.2⟩
  cases S with
  | nil => simp at hSl
  | cons a l => simp

/-- Witness for the amended C1 at the chain net. -/
theorem c1_witness :
    IsDepGraphOf c1wdg c1wnet.edges ∧ (c1wnet.nodes.map Node.id).Nodup ∧
      fabricate c1wnet c1wdg =
        FabOutcome.ok [[[2]], [[3]]] [[Transform.act 0], [Transform.act 0]] ∧
      1 ≤ ([[[2]], [[3]]] : List Stage).length :=
  ⟨by decide, by decide, by decide,
    (c1_success_stage_shape c1wnet c1wdg [[[2]], [[3]]]
      [[Transform.act 0], [Transform.act 0]] (by decide) (by decide) (by decide)).1⟩

/-!  The memo map of `unroll` (`HashMap` modelled as an association list). -/

/-- The overwrite image of the memo map leaves lookups of other keys
unchanged. -/
theorem find?_overwrite_ne (k v k2 : Nat) (hne : k2 ≠ k) :
    ∀ (m : List (Nat × Nat)),
      (m.map fun p => if p.1 = k then (k, v) else p).find? (fun p => decide (p.1 = k2)) =
        m.find? fun p => decide (p.1 = k2) := by
  intro m
  induction m with
  | nil => rfl
  | cons q rest ih =>
    rw [List.map_cons]
    by_cases hq2 : q.1 = k2
    · have hqk : ¬ q.1 = k := by
        rw [hq2]
        exact hne
      rw [if_neg hqk, List.find?_cons_of_pos _ (by simpa using hq2),
        List.find?_cons_of_pos _ (by simpa using hq2)]
    · by_cases hqk : q.1 = k
      · rw [if_pos hqk, List.find?_cons_of_neg _ (by simp; exact fun h => hne h.symm),
          List.find?_cons_of_neg _ (by simpa using hq2)]
        exact ih
      · rw [if_neg hqk, List.find?_cons_of_neg _ (by simpa using hq2),
          List.find?_cons_of_neg _ (by simpa using hq2)]
        exact ih

/-- Inserting a key makes its lookup return the inserted value. -/
theorem mapLookup_mapInsert_self (v : Nat) :
    ∀ (m : List (Nat × Nat)) (k : Nat), mapLookup (mapInsert m k v) k = some v := by
  intro m k
  rw [mapInsert]
  by_cases hf : ((m.find? fun p => decide (p.1 = k)).isSome : Prop)
  · rw [if_pos hf]
    induction m with
    | nil => simp at hf
    | cons q rest ih =>
      rw [List.map_cons]
      by_cases hqk : q.1 = k
      · rw [if_pos hqk, mapLookup, List.find?_cons_of_pos _ (by simp)]
        rfl
      · rw [if_neg hqk]
        rw [List.find?_cons_of_neg _ (by simpa using hqk)] at hf
        have ih2 := ih hf
        rw [mapLookup, List.find?_cons_of_neg _ (by simpa using hqk)]
        rw [mapLookup] at ih2
        exact ih2
  · rw [if_neg hf]
    rw [mapLookup, List.find?_append]
    have hnone : (m.find? fun p => decide (p.1 = k)) = none := by
      cases hx : m.find? fun p => decide (p.1 = k) with
      | none => rfl
      | some q => rw [hx] at hf; exact absurd rfl hf
    rw [hnone, List.find?_cons_of_pos _ (by simp)]
    rfl

/-- Inserting a key leaves lookups of other keys unchanged. -/
theorem mapLookup_mapInsert_ne (v k k2 : Nat) (hne : k2 ≠ k) :
    ∀ (m : List (Nat × Nat)), mapLookup (mapInsert m k v) k2 = mapLookup m k2 := by
  intro m
  rw [mapInsert]
  by_cases hf : ((m.find? fun p => decide (p.1 = k)).isSome : Prop)
  · rw [if_pos hf, mapLookup, find?_overwrite_ne k v k2 hne m, mapLookup]
  · rw [if_neg hf, mapLookup, List.find?_append,
      List.find?_cons_of_neg _ (by simp; exact fun h => hne h.symm)]
    rw [mapLookup]
    cases hx : m.find? fun p => decide (p.1 = k2) with
    | none => rfl
    | some q => rfl

/-- Every pair of the inserted map is the inserted pair or an original one. -/
theorem mem_mapInsert (m : List (Nat × Nat)) (k v : Nat) :
    ∀ p ∈ mapInsert m k v, p = (k, v) ∨ p ∈ m := by
  intro p hp
  rw [mapInsert] at hp
  by_cases hf : ((m.find? fun p => decide (p.1 = k)).isSome : Prop)
  · rw [if_pos hf] at hp
    obtain ⟨q, hq, hfq⟩ := List.mem_map.mp hp
    by_cases hqk : q.1 = k
    · rw [if_pos hqk] at hfq
      exact Or.inl hfq.symm
    · rw [if_neg hqk] at hfq
      exact Or.inr (hfq ▸ hq)
  · rw [if_neg hf] at hp
    rcases List.mem_append.mp hp with h | h
    · exact Or.inr h
    · simp at h
      exact Or.inl h

/-- Appending the next id extends the contiguous allocation log. -/
theorem range'_extend (n : Nat) (h1 : halfId ≤ n) :
    List.range' halfId (n - halfId) ++ [n] = List.range' halfId (n + 1 - halfId) := by
  have hn : n + 1 - halfId = (n - halfId) + 1 := by omega
  have h2 : halfId + 1 * (n - halfId) = n := by omega
  rw [hn, List.range'_concat, h2]

/-- The initial unroll state satisfies the allocator invariant. -/
theorem unrollInit_inv (r : RNet) : UnrollInv (unrollInit r) := by
  refine ⟨Nat.le_refl _, ?_, ?_⟩
  · show ([] : List Nat) = List.range' halfId (halfId - halfId)
    rw [Nat.sub_self]
    rfl
  · intro p hp
    simp [unrollInit] at hp

/-- The output-wrapper step preserves the allocator invariant. -/
theorem addOutputWrapper_inv (st : UnrollState) (o : Node) (h : UnrollInv st) :
    UnrollInv (addOutputWrapper st o) := by
  obtain ⟨h1, h2, h3⟩ := h
  refine ⟨?_, ?_, ?_⟩
  · show halfId ≤ st.nextId + 1
    omega
  · show st.allocated ++ [st.nextId] = List.range' halfId (st.nextId + 1 - halfId)
    rw [h2]
    exact range'_extend st.nextId h1
  · intro p hp
    have hp2 : p ∈ mapInsert st.unrollMap o.id st.nextId := hp
    rcases mem_mapInsert _ _ _ p hp2 with hc | hc
    · rw [hc]
      refine ⟨h1, ?_⟩
      show (⟨st.nextId, identAct⟩ : Node) ∈ st.knownInputs ++ [⟨st.nextId, identAct⟩]
      simp
    · have hold := h3 p hc
      refine ⟨hold.1, ?_⟩
      show (⟨p.2, identAct⟩ : Node) ∈ st.knownInputs ++ [⟨st.nextId, identAct⟩]
      exact List.mem_append.mpr (Or.inl hold.2)

/-- The recurrent-edge step preserves the allocator invariant. -/
theorem addRecEdge_inv (st : UnrollState) (re : Edge) (h : UnrollInv st) :
    UnrollInv (addRecEdge st re) := by
  obtain ⟨h1, h2, h3⟩ := h
  rw [addRecEdge]
  cases hlk : mapLookup st.unrollMap re.start with
  | some wi => exact ⟨h1, h2, h3⟩
  | none =>
    refine ⟨?_, ?_, ?_⟩
    · show halfId ≤ st.nextId + 2
      omega
    · show st.allocated ++ [st.nextId, st.nextId + 1] =
        List.range' halfId (st.nextId + 2 - halfId)
      have hs : st.allocated ++ [st.nextId, st.nextId + 1] =
          (st.allocated ++ [st.nextId]) ++ [st.nextId + 1] := by
        simp
      rw [hs, h2, range'_extend st.nextId h1]
      have h4 := range'_extend (st.nextId + 1) (by omega)
      have h5 : st.nextId + 1 + 1 - halfId = st.nextId + 2 - halfId := by omega
      rw [h5] at h4
      exact h4
    · intro p hp
      have hp2 : p ∈ mapInsert st.unrollMap re.start st.nextId := hp
      rcases mem_mapInsert _ _ _ p hp2 with hc | hc
      · rw [hc]
        refine ⟨h1, ?_⟩
        show (⟨st.nextId, identAct⟩ : Node) ∈ st.knownInputs ++ [⟨st.nextId, identAct⟩]
        simp
      · have hold := h3 p hc
        refine ⟨hold.1, ?_⟩
        show (⟨p.2, identAct⟩ : Node) ∈ st.knownInputs ++ [⟨st.nextId, identAct⟩]
        exact List.mem_append.mpr (Or.inl hold.2)

/-- The output pass preserves the allocator invariant. -/
theorem outputsPass_inv :
    ∀ (outs : List Node) (st : UnrollState), UnrollInv st →
      UnrollInv (outputsPass outs st) := by
  intro outs
  induction outs with
  | nil => intro st h; exact h
  | cons o rest ih =>
    intro st h
    exact ih _ (addOutputWrapper_inv st o h)

/-- The recurrent pass preserves the allocator invariant. -/
theorem recPass_inv :
    ∀ (res : List Edge) (st : UnrollState), UnrollInv st →
      UnrollInv (recPass res st) := by
  intro res
  induction res with
  | nil => intro st h; exact h
  | cons re rest ih =>
    intro st h
    exact ih _ (addRecEdge_inv st re h)

/-- The final unroll state satisfies the allocator invariant. -/
theorem unrollState_inv (r : RNet) : UnrollInv (unrollState r) :=
  recPass_inv _ _ (outputsPass_inv _ _ (unrollInit_inv r))

/-- Ids in `range'` are at least the range start. -/
theorem mem_range'_ge : ∀ (n s x : Nat), x ∈ List.range' s n → s ≤ x := by
  intro n
  induction n with
  | zero => intro s x h; simp at h
  | succ m ih =>
    intro s x h
    rw [List.range'_succ] at h
    rcases List.mem_cons.mp h with h1 | h2
    · omega
    · have := ih (s + 1) x h2
      omega

/-- Unit-step `range'` is strictly increasing. -/
theorem range'_pairwise_lt : ∀ (n s : Nat), (List.range' s n).Pairwise (· < ·) := by
  intro n
  induction n with
  | zero => intro s; simp
  | succ m ih =>
    intro s
    rw [List.range'_succ]
    refine List.Pairwise.cons ?_ (ih (s + 1))
    intro b hb
    have := mem_range'_ge m (s + 1) b hb
    omega

/-- Claim C9 (amended): within one `unroll` call the synthetic ids are
allocated in strictly increasing order and never reused; they are moreover
distinct from every caller-supplied node id *provided* all caller ids lie
below `usize::MAX >> 1`, the bottom of the reserved upper half (the code
reserves a fixed range instead of seeding above the maximum observed id, so
the disjointness is conditional on the caller's ids). -/
theorem c9_synthetic_ids_increasing_and_fresh (r : RNet)
    (hlt : ∀ n ∈ rnetNodes r, n.id < halfId) :
    ((unrollState r).allocated).Chain' (· < ·) ∧
      ((unrollState r).allocated).Nodup ∧
      ∀ s ∈ (unrollState r).allocated, ∀ n ∈ rnetNodes r, s ≠ n.id := by
  obtain ⟨h1, h2, h3⟩ := unrollState_inv r
  rw [h2]
  generalize (unrollState r).nextId - halfId = k
  have hpw := range'_pairwise_lt k halfId
  refine ⟨hpw.chain', ?_, ?_⟩
  · exact hpw.imp (fun h => Nat.ne_of_lt h)
  · intro s hs n hn
    have hge := mem_range'_ge _ _ _ hs
    have hl := hlt n hn
    omega

/-- Witness for the amended C9 at the recurrent chain net. -/
theorem c9_witness :
    (∀ n ∈ rnetNodes c7wrnet, n.id < halfId) ∧
      (((unrollState c7wrnet).allocated).Chain' (· < ·) ∧
        ((unrollState c7wrnet).allocated).Nodup ∧
        ∀ s ∈ (unrollState c7wrnet).allocated, ∀ n ∈ rnetNodes c7wrnet, s ≠ n.id) :=
  ⟨by decide, c9_synthetic_ids_increasing_and_fresh c7wrnet (by decide)⟩

/-- The memoized branch of the recurrent-edge step: an already-known source
only appends the inward edge. -/
theorem addRecEdge_hit (st : UnrollState) (re : Edge) (wi : Nat)
    (h : mapLookup st.unrollMap re.start = some wi) :
    addRecEdge st re =
      { st with knownEdges := st.knownEdges ++ [⟨wi, re.dest, re.weight⟩] } := by
  rw [addRecEdge, h]

/-- The allocating branch of the recurrent-edge step. -/
theorem addRecEdge_miss (st : UnrollState) (re : Edge)
    (h : mapLookup st.unrollMap re.start = none) :
    addRecEdge st re =
      { knownInputs := st.knownInputs ++ [⟨st.nextId, identAct⟩]
        knownOutputs := st.knownOutputs ++ [⟨st.nextId + 1, identAct⟩]
        knownEdges := st.knownEdges ++
          [⟨re.start, st.nextId + 1, 1⟩, ⟨st.nextId, re.dest, re.weight⟩]
        unrollMap := mapInsert st.unrollMap re.start st.nextId
        nextId := st.nextId + 2
        allocated := st.allocated ++ [st.nextId, st.nextId + 1] } := by
  rw [addRecEdge, h]

/-- A recorded memo entry survives one recurrent-edge step (`or_insert_with`
never overwrites). -/
theorem addRecEdge_lookup_mono (st : UnrollState) (re : Edge) (k v : Nat)
    (h : mapLookup st.unrollMap k = some v) :
    mapLookup (addRecEdge st re).unrollMap k = some v := by
  cases hlk : mapLookup st.unrollMap re.start with
  | some wi =>
    rw [addRecEdge_hit st re wi hlk]
    exact h
  | none =>
    rw [addRecEdge_miss st re hlk]
    show mapLookup (mapInsert st.unrollMap re.start st.nextId) k = some v
    have hkne : k ≠ re.start := by
      intro hk
      rw [hk] at h
      rw [hlk] at h
      exact absurd h (by simp)
    rw [mapLookup_mapInsert_ne _ _ _ hkne]
    exact h

/-- A recorded memo entry survives the whole recurrent pass. -/
theorem recPass_lookup_mono :
    ∀ (res : List Edge) (st : UnrollState) (k v : Nat),
      mapLookup st.unrollMap k = some v →
      mapLookup (recPass res st).unrollMap k = some v := by
  intro res
  induction res with
  | nil => intro st k v h; exact h
  | cons re rest ih =>
    intro st k v h
    exact ih _ k v (addRecEdge_lookup_mono st re k v h)

/-- Known inputs, outputs and edges only grow during the recurrent pass. -/
theorem addRecEdge_mono (st : UnrollState) (re : Edge) :
    (∀ nd ∈ st.knownInputs, nd ∈ (addRecEdge st re).knownInputs) ∧
      (∀ nd ∈ st.knownOutputs, nd ∈ (addRecEdge st re).knownOutputs) ∧
      (∀ e ∈ st.knownEdges, e ∈ (addRecEdge st re).knownEdges) := by
  cases hlk : mapLookup st.unrollMap re.start with
  | some wi =>
    rw [addRecEdge_hit st re wi hlk]
    exact ⟨fun nd h => h, fun nd h => h, fun e h => List.mem_append.mpr (Or.inl h)⟩
  | none =>
    rw [addRecEdge_miss st re hlk]
    exact ⟨fun nd h => List.mem_append.mpr (Or.inl h),
      fun nd h => List.mem_append.mpr (Or.inl h),
      fun e h => List.mem_append.mpr (Or.inl h)⟩

/-- Monotonicity of the full recurrent pass. -/
theorem recPass_mono :
    ∀ (res : List Edge) (st : UnrollState),
      (∀ nd ∈ st.knownInputs, nd ∈ (recPass res st).knownInputs) ∧
        (∀ nd ∈ st.knownOutputs, nd ∈ (recPass res st).knownOutputs) ∧
        (∀ e ∈ st.knownEdges, e ∈ (recPass res st).knownEdges) := by
  intro res
  induction res with
  | nil => intro st; exact ⟨fun _ h => h, fun _ h => h, fun _ h => h⟩
  | cons re rest ih =>
    intro st
    obtain ⟨a1, a2, a3⟩ := addRecEdge_mono st re
    obtain ⟨b1, b2, b3⟩ := ih (addRecEdge st re)
    exact ⟨fun nd h => b1 nd (a1 nd h), fun nd h => b2 nd (a2 nd h),
      fun e h => b3 e (a3 e h)⟩

/-- A successful lookup names a pair of the map. -/
theorem mapLookup_mem (m : List (Nat × Nat)) (k v : Nat)
    (h : mapLookup m k = some v) : ∃ p ∈ m, p.2 = v := by
  rw [mapLookup] at h
  cases hf : m.find? fun p => decide (p.1 = k) with
  | none => rw [hf] at h; exact absurd h (by simp)
  | some q =>
    rw [hf] at h
    refine ⟨q, List.mem_of_find?_eq_some hf, by simpa using h⟩

/-- The output pass pushes exactly one wrapper input per output occurrence
and touches neither edges nor outputs. -/
theorem outputsPass_facts :
    ∀ (outs : List Node) (st : UnrollState),
      (outputsPass outs st).knownInputs.length = st.knownInputs.length + outs.length ∧
        (outputsPass outs st).knownEdges = st.knownEdges ∧
        (outputsPass outs st).knownOutputs = st.knownOutputs := by
  intro outs
  induction outs with
  | nil => intro st; exact ⟨rfl, rfl, rfl⟩
  | cons o rest ih =>
    intro st
    obtain ⟨a, b, c⟩ := ih (addOutputWrapper st o)
    refine ⟨?_, ?_, ?_⟩
    · show (outputsPass rest (addOutputWrapper st o)).knownInputs.length =
        st.knownInputs.length + (o :: rest).length
      rw [a]
      show (st.knownInputs ++ [(⟨st.nextId, identAct⟩ : Node)]).length + rest.length =
        st.knownInputs.length + (o :: rest).length
      simp only [List.length_append, List.length_cons, List.length_nil]
      omega
    · show (outputsPass rest (addOutputWrapper st o)).knownEdges = st.knownEdges
      rw [b]
      rfl
    · show (outputsPass rest (addOutputWrapper st o)).knownOutputs = st.knownOutputs
      rw [c]
      rfl

/-- Memo keys after the output pass are exactly the prior keys plus the
output ids. -/
theorem outputsPass_keys :
    ∀ (outs : List Node) (st : UnrollState) (P : Nat → Prop),
      (∀ k, (mapLookup st.unrollMap k).isSome ↔ P k) →
      ∀ k, (mapLookup (outputsPass outs st).unrollMap k).isSome ↔
        (P k ∨ k ∈ outs.map Node.id) := by
  intro outs
  induction outs with
  | nil =>
    intro st P hP k
    simpa using hP k
  | cons o rest ih =>
    intro st P hP k
    have hP1 : ∀ k2, (mapLookup (addOutputWrapper st o).unrollMap k2).isSome ↔
        (P k2 ∨ k2 = o.id) := by
      intro k2
      by_cases hk : k2 = o.id
      · subst hk
        constructor
        · intro _
          exact Or.inr rfl
        · intro _
          show (mapLookup (mapInsert st.unrollMap o.id st.nextId) o.id).isSome
          rw [mapLookup_mapInsert_self]
          rfl
      · constructor
        · intro h
          rw [show (addOutputWrapper st o).unrollMap =
              mapInsert st.unrollMap o.id st.nextId from rfl,
            mapLookup_mapInsert_ne _ _ _ hk] at h
          exact Or.inl ((hP k2).mp h)
        · rintro (h | h)
          · rw [show (addOutputWrapper st o).unrollMap =
                mapInsert st.unrollMap o.id st.nextId from rfl,
              mapLookup_mapInsert_ne _ _ _ hk]
            exact (hP k2).mpr h
          · exact absurd h hk
    have hmain := ih (addOutputWrapper st o) (fun k2 => P k2 ∨ k2 = o.id) hP1 k
    have hiff : ((P k ∨ k = o.id) ∨ k ∈ rest.map Node.id) ↔
        (P k ∨ k ∈ (o :: rest).map Node.id) := by
      rw [List.map_cons, List.mem_cons]
      tauto
    exact hmain.trans hiff

/-- Through the recurrent pass, the known-input count grows by exactly one
per first occurrence of a source that is neither an original output nor
already seen — the memo keys stay in sync with the seen sources. -/
theorem recPass_inputs_count (outIds : List Nat) :
    ∀ (res : List Edge) (st : UnrollState) (acc : List Nat),
      (∀ k, (mapLookup st.unrollMap k).isSome ↔ (k ∈ outIds ∨ k ∈ acc)) →
      (recPass res st).knownInputs.length + acc.length =
        st.knownInputs.length +
          (newSourcesFrom outIds acc (res.map Edge.start)).length := by
  intro res
  induction res with
  | nil =>
    intro st acc hK
    rfl
  | cons re rest ih =>
    intro st acc hK
    show (recPass rest (addRecEdge st re)).knownInputs.length + acc.length =
      st.knownInputs.length +
        (newSourcesFrom outIds
          (if re.start ∈ outIds ∨ re.start ∈ acc then acc else acc ++ [re.start])
          (rest.map Edge.start)).length
    cases hlk : mapLookup st.unrollMap re.start with
    | some wi =>
      have hmem : re.start ∈ outIds ∨ re.start ∈ acc :=
        (hK re.start).mp (by rw [hlk]; rfl)
      rw [if_pos hmem]
      have hK1 : ∀ k, (mapLookup (addRecEdge st re).unrollMap k).isSome ↔
          (k ∈ outIds ∨ k ∈ acc) := by
        intro k
        rw [addRecEdge_hit st re wi hlk]
        exact hK k
      have hrec := ih (addRecEdge st re) acc hK1
      have hlen : (addRecEdge st re).knownInputs = st.knownInputs := by
        rw [addRecEdge_hit st re wi hlk]
      rw [hlen] at hrec
      exact hrec
    | none =>
      have hmem : ¬(re.start ∈ outIds ∨ re.start ∈ acc) := by
        intro hc
        have h2 := (hK re.start).mpr hc
        rw [hlk] at h2
        simp at h2
      rw [if_neg hmem]
      have hK1 : ∀ k, (mapLookup (addRecEdge st re).unrollMap k).isSome ↔
          (k ∈ outIds ∨ k ∈ acc ++ [re.start]) := by
        intro k
        rw [addRecEdge_miss st re hlk]
        show (mapLookup (mapInsert st.unrollMap re.start st.nextId) k).isSome ↔ _
        by_cases hk : k = re.start
        · subst hk
          rw [mapLookup_mapInsert_self]
          simp
        · rw [mapLookup_mapInsert_ne _ _ _ hk, hK k]
          constructor
          · rintro (h | h)
            · exact Or.inl h
            · exact Or.inr (List.mem_append.mpr (Or.inl h))
          · rintro (h | h)
            · exact Or.inl h
            · rcases List.mem_append.mp h with h2 | h2
              · exact Or.inr h2
              · simp at h2
                exact absurd h2 hk
      have hrec := ih (addRecEdge st re) (acc ++ [re.start]) hK1
      have hlen : (addRecEdge st re).knownInputs.length = st.knownInputs.length + 1 := by
        rw [addRecEdge_miss st re hlk]
        show (st.knownInputs ++ [(⟨st.nextId, identAct⟩ : Node)]).length = _
        simp
      rw [hlen] at hrec
      have haccl : (acc ++ [re.start]).length = acc.length + 1 := by simp
      rw [haccl] at hrec
      omega

/-- Claim C8: for every original output node, `unroll` unconditionally adds
one synthetic wrapper input with identity activation and records the mapping
original-output-id to synthetic-input-id; consequently the result's input
count is the original input count plus the output count plus one per
distinct non-output recurrent-edge source. -/
theorem c8_output_feedback_inputs (r : RNet) :
    (unroll r).inputs.length =
        r.inputs.length + r.outputs.length + (newRecSources r).length ∧
      ∀ o ∈ r.outputs, ∃ wi : Nat,
        mapLookup (unrollState r).unrollMap o.id = some wi ∧ halfId ≤ wi ∧
          (⟨wi, identAct⟩ : Node) ∈ (unroll r).inputs := by
  have hK0 : ∀ k, (mapLookup (unrollInit r).unrollMap k).isSome ↔ False := by
    intro k
    show (mapLookup [] k).isSome ↔ False
    simp [mapLookup]
  have hKs := outputsPass_keys r.outputs (unrollInit r) (fun _ => False) hK0
  have hK1 : ∀ k, (mapLookup (outputsPass r.outputs (unrollInit r)).unrollMap k).isSome ↔
      (k ∈ r.outputs.map Node.id ∨ k ∈ ([] : List Nat)) := by
    intro k
    rw [hKs k]
    simp
  constructor
  · show (unrollState r).knownInputs.length =
      r.inputs.length + r.outputs.length + (newRecSources r).length
    rw [newRecSources]
    have hc := recPass_inputs_count (r.outputs.map Node.id) r.recEdges
      (outputsPass r.outputs (unrollInit r)) [] hK1
    have hlen0 := (outputsPass_facts r.outputs (unrollInit r)).1
    have hinit : (unrollInit r).knownInputs.length = r.inputs.length := rfl
    have hu : (unrollState r).knownInputs.length =
        (recPass r.recEdges (outputsPass r.outputs (unrollInit r))).knownInputs.length := rfl
    simp only [List.length_nil] at hc
    omega
  · intro o ho
    have hkey : (mapLookup (outputsPass r.outputs (unrollInit r)).unrollMap o.id).isSome := by
      rw [hK1 o.id]
      exact Or.inl (List.mem_map.mpr ⟨o, ho, rfl⟩)
    obtain ⟨v, hv⟩ := Option.isSome_iff_exists.mp hkey
    have hfin : mapLookup (unrollState r).unrollMap o.id = some v :=
      recPass_lookup_mono r.recEdges _ o.id v hv
    obtain ⟨p, hp, hp2⟩ := mapLookup_mem _ _ _ hfin
    have hmv := (unrollState_inv r).mapVals p hp
    refine ⟨v, hfin, ?_, ?_⟩
    · rw [← hp2]
      exact hmv.1
    · rw [← hp2]
      exact hmv.2

/-- Memo keys right after the output pass are exactly the output ids. -/
theorem outputsPass_keys_init (r : RNet) :
    ∀ k, (mapLookup (outputsPass r.outputs (unrollInit r)).unrollMap k).isSome ↔
      k ∈ r.outputs.map Node.id := by
  have hK0 : ∀ k, (mapLookup (unrollInit r).unrollMap k).isSome ↔ False := by
    intro k
    show (mapLookup [] k).isSome ↔ False
    simp [mapLookup]
  intro k
  rw [outputsPass_keys r.outputs (unrollInit r) (fun _ => False) hK0 k]
  simp

/-- The edge-shape invariant holds right after the output pass (which copies
the original edges untouched), provided the original edges end below the
synthetic range. -/
theorem outputsPass_edgeInv (r : RNet) (hE : ∀ e ∈ r.edges, e.dest < halfId) :
    UnrollEdgeInv r (outputsPass r.outputs (unrollInit r)) := by
  have hedges := (outputsPass_facts r.outputs (unrollInit r)).2.1
  refine ⟨?_, ?_, ?_⟩
  · intro e he
    rw [hedges] at he
    exact Or.inl he
  · intro s hs hsout
    rw [hedges]
    have hfe : ((unrollInit r).knownEdges.filter fun e =>
        decide (e.start = s) && decide (halfId ≤ e.dest)) = [] := by
      rw [List.filter_eq_nil_iff]
      intro e he
      have hd := hE e he
      simp
      intro _
      omega
    rw [hfe]
    rw [if_neg]
    · rfl
    · intro hsome
      exact hsout ((outputsPass_keys_init r s).mp hsome)
  · intro s hs hsout hsome
    exact absurd ((outputsPass_keys_init r s).mp hsome) hsout

/-- One recurrent-edge step preserves the edge-shape invariant. -/
theorem addRecEdge_edgeInv (r : RNet) (st : UnrollState) (re : Edge)
    (hI : UnrollInv st) (hEI : UnrollEdgeInv r st) :
    UnrollEdgeInv r (addRecEdge st re) := by
  obtain ⟨hes, hoc, how⟩ := hEI
  cases hlk : mapLookup st.unrollMap re.start with
  | some wi =>
    obtain ⟨p, hp, hp2⟩ := mapLookup_mem _ _ _ hlk
    have hwi : halfId ≤ wi := hp2 ▸ (hI.mapVals p hp).1
    rw [addRecEdge_hit st re wi hlk]
    refine ⟨?_, ?_, ?_⟩
    · intro e he
      rcases List.mem_append.mp he with h | h
      · exact hes e h
      · simp at h
        subst h
        exact Or.inr (Or.inr hwi)
    · intro s hs hsout
      show ((st.knownEdges ++ [(⟨wi, re.dest, re.weight⟩ : Edge)]).filter
          fun e : Edge => decide (e.start = s) && decide (halfId ≤ e.dest)).length = _
      rw [List.filter_append]
      have hone : (([⟨wi, re.dest, re.weight⟩] : List Edge).filter fun e =>
          decide (e.start = s) && decide (halfId ≤ e.dest)) = [] := by
        rw [List.filter_eq_nil_iff]
        intro e he
        simp at he
        subst he
        simp
        intro heq
        omega
      rw [hone, List.append_nil]
      exact hoc s hs hsout
    · intro s hs hsout hsome
      obtain ⟨wo, h1, h2, h3⟩ := how s hs hsout hsome
      exact ⟨wo, List.mem_append.mpr (Or.inl h1), h2, h3⟩
  | none =>
    have hnext := hI.nextGe
    rw [addRecEdge_miss st re hlk]
    refine ⟨?_, ?_, ?_⟩
    · intro e he
      rcases List.mem_append.mp he with h | h
      · exact hes e h
      · rcases List.mem_cons.mp h with h2 | h2
        · rw [h2]
          exact Or.inr (Or.inl (by show halfId ≤ st.nextId + 1; omega))
        · simp at h2
          rw [h2]
          exact Or.inr (Or.inr (by show halfId ≤ st.nextId; omega))
    · intro s hs hsout
      show ((st.knownEdges ++ [(⟨re.start, st.nextId + 1, 1⟩ : Edge),
          (⟨st.nextId, re.dest, re.weight⟩ : Edge)]).filter
          fun e : Edge => decide (e.start = s) && decide (halfId ≤ e.dest)).length = _
      rw [List.filter_append]
      by_cases hseq : s = re.start
      · subst hseq
        have hold := hoc re.start hs hsout
        rw [hlk] at hold
        simp only [Option.isSome_none, Bool.false_eq_true, if_false] at hold
        have holdnil : (st.knownEdges.filter fun e =>
            decide (e.start = re.start) && decide (halfId ≤ e.dest)) = [] :=
          List.length_eq_zero.mp hold
        rw [holdnil]
        have hnew : (([⟨re.start, st.nextId + 1, 1⟩, ⟨st.nextId, re.dest, re.weight⟩] :
            List Edge).filter fun e =>
            decide (e.start = re.start) && decide (halfId ≤ e.dest)) =
            [⟨re.start, st.nextId + 1, 1⟩] := by
          rw [List.filter_cons_of_pos (by simp; omega)]
          rw [List.filter_cons_of_neg (by simp; intro heq; omega)]
          rfl
        rw [hnew]
        rw [if_pos]
        · rfl
        · show (mapLookup (mapInsert st.unrollMap re.start st.nextId) re.start).isSome
          rw [mapLookup_mapInsert_self]
          rfl
      · have hnew : (([⟨re.start, st.nextId + 1, 1⟩, ⟨st.nextId, re.dest, re.weight⟩] :
            List Edge).filter fun e =>
            decide (e.start = s) && decide (halfId ≤ e.dest)) = [] := by
          rw [List.filter_eq_nil_iff]
          intro e he
          rcases List.mem_cons.mp he with h2 | h2
          · rw [h2]
            simp
            intro heq
            exact absurd heq.symm hseq
          · simp at h2
            rw [h2]
            simp
            intro heq
            omega
        rw [hnew, List.append_nil]
        have hlkne : mapLookup (mapInsert st.unrollMap re.start st.nextId) s =
            mapLookup st.unrollMap s := mapLookup_mapInsert_ne _ _ _ hseq _
        show (List.filter _ st.knownEdges).length =
          if (mapLookup (mapInsert st.unrollMap re.start st.nextId) s).isSome then 1 else 0
        rw [hlkne]
        exact hoc s hs hsout
    · intro s hs hsout hsome
      by_cases hseq : s = re.start
      · subst hseq
        refine ⟨st.nextId + 1, ?_, by omega, ?_⟩
        · refine List.mem_append.mpr (Or.inr ?_)
          simp
        · show (⟨st.nextId + 1, identAct⟩ : Node) ∈
            st.knownOutputs ++ [⟨st.nextId + 1, identAct⟩]
          simp
      · have hsome2 : (mapLookup st.unrollMap s).isSome := by
          have hlkne : mapLookup (mapInsert st.unrollMap re.start st.nextId) s =
              mapLookup st.unrollMap s := mapLookup_mapInsert_ne _ _ _ hseq _
          rw [← hlkne]
          exact hsome
        obtain ⟨wo, h1, h2, h3⟩ := how s hs hsout hsome2
        exact ⟨wo, List.mem_append.mpr (Or.inl h1), h2,
          List.mem_append.mpr (Or.inl h3)⟩

/-- The recurrent pass preserves the edge-shape invariant. -/
theorem recPass_edgeInv (r : RNet) :
    ∀ (res : List Edge) (st : UnrollState), UnrollInv st → UnrollEdgeInv r st →
      UnrollEdgeInv r (recPass res st) := by
  intro res
  induction res with
  | nil => intro st _ h; exact h
  | cons re rest ih =>
    intro st hI hEI
    exact ih _ (addRecEdge_inv st re hI) (addRecEdge_edgeInv r st re hI hEI)

/-- Witness for C8 at the recurrent chain net: one original input, one
output wrapper, one wrapper for the non-output recurrent source. -/
theorem c8_witness :
    (unroll c7wrnet).inputs.length = 3 ∧
      ∃ wi : Nat, mapLookup (unrollState c7wrnet).unrollMap 2 = some wi ∧
        halfId ≤ wi ∧ (⟨wi, identAct⟩ : Node) ∈ (unroll c7wrnet).inputs :=
  ⟨by rw [(c8_output_feedback_inputs c7wrnet).1]; decide,
    (c8_output_feedback_inputs c7wrnet).2 ⟨2, 0⟩ (by decide)⟩

/-- Every recurrent edge processed by the pass leaves an inward rewired edge
from the memoized wrapper input of its source to its destination, with the
original weight. -/
theorem recPass_inward :
    ∀ (res : List Edge) (st : UnrollState), UnrollInv st →
      ∀ re ∈ res, ∃ wi : Nat,
        mapLookup (recPass res st).unrollMap re.start = some wi ∧ halfId ≤ wi ∧
          (⟨wi, re.dest, re.weight⟩ : Edge) ∈ (recPass res st).knownEdges := by
  intro res
  induction res with
  | nil => intro st _ re hre; simp at hre
  | cons e rest ih =>
    intro st hI re hre
    rcases List.mem_cons.mp hre with heq | htail
    · subst heq
      cases hlk : mapLookup st.unrollMap re.start with
      | some wi =>
        obtain ⟨p, hp, hp2⟩ := mapLookup_mem _ _ _ hlk
        have hwi : halfId ≤ wi := hp2 ▸ (hI.mapVals p hp).1
        have hlk1 : mapLookup (addRecEdge st re).unrollMap re.start = some wi := by
          rw [addRecEdge_hit st re wi hlk]
          exact hlk
        have hmem1 : (⟨wi, re.dest, re.weight⟩ : Edge) ∈ (addRecEdge st re).knownEdges := by
          rw [addRecEdge_hit st re wi hlk]
          show (⟨wi, re.dest, re.weight⟩ : Edge) ∈
            st.knownEdges ++ [(⟨wi, re.dest, re.weight⟩ : Edge)]
          simp
        refine ⟨wi, ?_, hwi, ?_⟩
        · exact recPass_lookup_mono rest _ re.start wi hlk1
        · exact (recPass_mono rest (addRecEdge st re)).2.2 _ hmem1
      | none =>
        have hlk1 : mapLookup (addRecEdge st re).unrollMap re.start = some st.nextId := by
          rw [addRecEdge_miss st re hlk]
          show mapLookup (mapInsert st.unrollMap re.start st.nextId) re.start = _
          rw [mapLookup_mapInsert_self]
        have hmem1 : (⟨st.nextId, re.dest, re.weight⟩ : Edge) ∈
            (addRecEdge st re).knownEdges := by
          rw [addRecEdge_miss st re hlk]
          show (⟨st.nextId, re.dest, re.weight⟩ : Edge) ∈
            st.knownEdges ++ [(⟨re.start, st.nextId + 1, 1⟩ : Edge),
              (⟨st.nextId, re.dest, re.weight⟩ : Edge)]
          simp
        refine ⟨st.nextId, ?_, hI.nextGe, ?_⟩
        · exact recPass_lookup_mono rest _ re.start st.nextId hlk1
        · exact (recPass_mono rest (addRecEdge st re)).2.2 _ hmem1
    · exact ih (addRecEdge st e) (addRecEdge_inv st e hI) re htail

/-- Claim C7 (amended): for every recurrent edge, `unroll` adds an inward
edge from the memoized wrapper input of its source to the destination with
the recurrent weight; for every recurrent edge whose source is *not* an
original output (output sources reuse the output's feedback wrapper input
and receive neither a pair nor an identity edge), exactly one outward
identity edge of weight one from the source into the synthetic range exists
— the wrapper pair is allocated at most once per distinct source — ending
at a synthetic wrapper-output node; and no recurrent edge appears directly
in the result's edge list.  Hypotheses: caller edges end below the synthetic
range, recurrent edges connect ids below the synthetic range, and no
recurrent edge is also listed as a normal edge. -/
theorem c7_recurrent_rewiring (r : RNet)
    (hE : ∀ e ∈ r.edges, e.dest < halfId)
    (hRE : ∀ e ∈ r.recEdges, e.start < halfId ∧ e.dest < halfId)
    (hdisj : ∀ re ∈ r.recEdges, re ∉ r.edges) :
    (∀ re ∈ r.recEdges, ∃ wi : Nat,
        mapLookup (unrollState r).unrollMap re.start = some wi ∧ halfId ≤ wi ∧
          (⟨wi, re.dest, re.weight⟩ : Edge) ∈ (unroll r).edges) ∧
      (∀ re ∈ r.recEdges, re.start ∉ r.outputs.map Node.id →
        ((unroll r).edges.filter fun e =>
            decide (e.start = re.start) && decide (halfId ≤ e.dest)).length = 1 ∧
          ∃ wo : Nat, (⟨re.start, wo, 1⟩ : Edge) ∈ (unroll r).edges ∧ halfId ≤ wo ∧
            (⟨wo, identAct⟩ : Node) ∈ (unroll r).outputs) ∧
      ∀ re ∈ r.recEdges, re ∉ (unroll r).edges := by
  have hI0 : UnrollInv (outputsPass r.outputs (unrollInit r)) :=
    outputsPass_inv _ _ (unrollInit_inv r)
  have hEI : UnrollEdgeInv r (unrollState r) :=
    recPass_edgeInv r r.recEdges _ hI0 (outputsPass_edgeInv r hE)
  have hinward : ∀ re ∈ r.recEdges, ∃ wi : Nat,
      mapLookup (unrollState r).unrollMap re.start = some wi ∧ halfId ≤ wi ∧
        (⟨wi, re.dest, re.weight⟩ : Edge) ∈ (unrollState r).knownEdges :=
    recPass_inward r.recEdges _ hI0
  refine ⟨hinward, ?_, ?_⟩
  · intro re hre hout
    have hlt := (hRE re hre).1
    obtain ⟨wi, hwi, _, _⟩ := hinward re hre
    have hsome : (mapLookup (unrollState r).unrollMap re.start).isSome := by
      rw [hwi]
      rfl
    refine ⟨?_, ?_⟩
    · have hc := hEI.outCount re.start hlt hout
      rw [if_pos hsome] at hc
      exact hc
    · exact hEI.outWrap re.start hlt hout hsome
  · intro re hre hmem
    rcases hEI.edgesShape re hmem with h | h | h
    · exact hdisj re hre h
    · have := (hRE re hre).2
      omega
    · have := (hRE re hre).1
      omega

/-- Witness for the amended C7 at the recurrent chain net (recurrent
self-loop on the hidden node 1). -/
theorem c7_witness :
    (∀ e ∈ c7wrnet.edges, e.dest < halfId) ∧
      (∀ e ∈ c7wrnet.recEdges, e.start < halfId ∧ e.dest < halfId) ∧
      (∀ re ∈ c7wrnet.recEdges, re ∉ c7wrnet.edges) ∧
      ((∀ re ∈ c7wrnet.recEdges, ∃ wi : Nat,
          mapLookup (unrollState c7wrnet).unrollMap re.start = some wi ∧ halfId ≤ wi ∧
            (⟨wi, re.dest, re.weight⟩ : Edge) ∈ (unroll c7wrnet).edges) ∧
        (∀ re ∈ c7wrnet.recEdges, re.start ∉ c7wrnet.outputs.map Node.id →
          ((unroll c7wrnet).edges.filter fun e =>
              decide (e.start = re.start) && decide (halfId ≤ e.dest)).length = 1 ∧
            ∃ wo : Nat, (⟨re.start, wo, 1⟩ : Edge) ∈ (unroll c7wrnet).edges ∧
              halfId ≤ wo ∧ (⟨wo, identAct⟩ : Node) ∈ (unroll c7wrnet).outputs) ∧
        ∀ re ∈ c7wrnet.recEdges, re ∉ (unroll c7wrnet).edges) :=
  ⟨by decide, by decide, by decide,
    c7_recurrent_rewiring c7wrnet (by decide) (by decide) (by decide)⟩
